import Mathlib

/-!
Verification of the price-time priority matching core of the
Prediction-Exchange repository (`app/matching/orderbook.py`,
`app/matching/engine.py`, `app/matching/exceptions.py`).

Decimal quantities and prices are embedded as rationals (`ℚ`), order ids and
market ids as strings, and the Python `dict` keyed by order id as an
association list with unique-key insert/pop semantics.  Python mutates
`Order` objects in place; here state is passed explicitly, and the fact that
the side list and the id index alias the same object is modelled by updating
both wherever the Python code mutates a resting order.
-/

namespace PredictionExchange

/-- Modelled from the spec: side of an order, BUY or SELL
(`app/matching/enums.py` is not part of the provided sources). -/
inductive Side where
  | BUY
  | SELL
deriving DecidableEq, Repr

/-- Modelled from the spec: order kind, LIMIT or MARKET
(`app/matching/enums.py` is not part of the provided sources). -/
inductive OrderType where
  | LIMIT
  | MARKET
deriving DecidableEq, Repr

/-- Modelled from the spec: the Order value record of `app/matching/models.py`
(absent from the provided sources): identity fields, side, kind, optional
price (present iff LIMIT, a fraction in (0,1)), original quantity, mutable
remaining quantity, and a creation timestamp used as the time-priority
tiebreak.  The timestamp is embedded as a natural number. -/
structure Order where
  id : String
  market_id : String
  user_id : String
  side : Side
  type : OrderType
  price : Option ℚ
  quantity : ℚ
  remaining : ℚ
  created_at : Nat
deriving DecidableEq, Repr

/-- Modelled from the spec: the Trade record of `app/matching/models.py`
(absent from the provided sources): identity, market, the two order ids, the
execution price and quantity.  The price is optional because the matching
code can pass `None` through (its own comment: "should not be None here");
the execution timestamp is a construction-time default never read by the
matching core and is omitted. -/
structure Trade where
  id : String
  market_id : String
  buy_order_id : String
  sell_order_id : String
  price : Option ℚ
  quantity : ℚ
deriving DecidableEq, Repr

/-- Error taxonomy of `app/matching/exceptions.py`: the base matching-engine
error is only ever specialised to `OrderNotFound`, embedded as the single
constructor carrying the message. -/
inductive MatchingEngineError where
  | orderNotFound (msg : String)
deriving DecidableEq, Repr

/-- Python `d.get(k)` / `d[k]` lookup on a dict embedded as an association
list: the value stored under `k`, if any. -/
def dictGet {α : Type} (d : List (String × α)) (k : String) : Option α :=
  (d.find? (fun e => e.1 == k)).map (fun e => e.2)

/-- Python `d.pop(k, None)` on a dict: remove the binding for `k` (a dict
holds at most one binding per key; filtering them all out is the same
operation on well-formed dicts and is total on all lists). -/
def dictPop {α : Type} (d : List (String × α)) (k : String) : List (String × α) :=
  d.filter (fun e => e.1 != k)

/-- Python `d[k] = v` on a dict: overwrite the existing binding for `k` in
place, or append a new binding at the end. -/
def dictInsert {α : Type} (d : List (String × α)) (k : String) (v : α) :
    List (String × α) :=
  if d.any (fun e => e.1 == k) then
    d.map (fun e => if e.1 == k then (k, v) else e)
  else
    d ++ [(k, v)]

/-- Python `a or b` on two optional Decimals: `None` and `Decimal("0")` are
falsy, so the result is `b` unless `a` holds a nonzero value. -/
def pyOr (a b : Option ℚ) : Option ℚ :=
  match a with
  | none => b
  | some p => if p = 0 then b else some p

/-- The deterministic trade id `f"t-{x}-{y}-{len(trades)+1}"` built in
`_match_buy` / `_match_sell`. -/
def tradeId (x y : String) (n : Nat) : String :=
  "t-" ++ x ++ "-" ++ y ++ "-" ++ toString n

/-- The break test of `_match_buy`: scanning stops when the incoming order is
a LIMIT order, the resting ask carries a price, and either the incoming order
has no price or the resting ask's price exceeds it. -/
def buyBreaks (incoming best : Order) : Bool :=
  incoming.type == OrderType.LIMIT &&
    match best.price, incoming.price with
    | some _, none => true
    | some bp, some ip => decide (ip < bp)
    | none, _ => false

/-- The break test of `_match_sell`: scanning stops when the incoming order
is a LIMIT order, the resting bid carries a price, and either the incoming
order has no price or the resting bid's price is below it. -/
def sellBreaks (incoming best : Order) : Bool :=
  incoming.type == OrderType.LIMIT &&
    match best.price, incoming.price with
    | some _, none => true
    | some bp, some ip => decide (bp < ip)
    | none, _ => false

/-- The while loop of `_match_buy`.  The scan index `i` over `self.sells` is
represented as a zipper: `done` is `sells[:i]` (entries the index moved past)
and `todo` is `sells[i:]`; `del self.sells[i]` drops the head of `todo`, and
`i += 1` moves the head of `todo` onto `done`.  `trades` is the accumulator
the loop appends to (its length feeds the trade id).  The in-place decrement
of the resting ask is mirrored into the id index, which aliases the same
object in Python.  Returns the final incoming order, `self.sells`, the id
index, and the trade list. -/
def matchBuyGo (incoming : Order) (done todo : List Order)
    (idx : List (String × Order)) (trades : List Trade) :
    Order × List Order × List (String × Order) × List Trade :=
  match todo with
  | [] => (incoming, done, idx, trades)
  | best :: rest =>
    if incoming.remaining ≤ 0 then (incoming, done ++ best :: rest, idx, trades)
    else if buyBreaks incoming best then (incoming, done ++ best :: rest, idx, trades)
    else
      let qty := min incoming.remaining best.remaining
      let t : Trade :=
        { id := tradeId incoming.id best.id (trades.length + 1)
          market_id := incoming.market_id
          buy_order_id := incoming.id
          sell_order_id := best.id
          price := pyOr best.price incoming.price
          quantity := qty }
      let inc2 := { incoming with remaining := incoming.remaining - qty }
      let best2 := { best with remaining := best.remaining - qty }
      if best2.remaining ≤ 0 then
        matchBuyGo inc2 done rest (dictPop idx best.id) (trades ++ [t])
      else
        matchBuyGo inc2 (done ++ [best2]) rest (dictInsert idx best.id best2) (trades ++ [t])

/-- The while loop of `_match_sell`, the mirror image of `matchBuyGo` over
`self.buys`: the trade id and the buy/sell order-id fields are swapped, and
the break test compares in the opposite direction. -/
def matchSellGo (incoming : Order) (done todo : List Order)
    (idx : List (String × Order)) (trades : List Trade) :
    Order × List Order × List (String × Order) × List Trade :=
  match todo with
  | [] => (incoming, done, idx, trades)
  | best :: rest =>
    if incoming.remaining ≤ 0 then (incoming, done ++ best :: rest, idx, trades)
    else if sellBreaks incoming best then (incoming, done ++ best :: rest, idx, trades)
    else
      let qty := min incoming.remaining best.remaining
      let t : Trade :=
        { id := tradeId best.id incoming.id (trades.length + 1)
          market_id := incoming.market_id
          buy_order_id := best.id
          sell_order_id := incoming.id
          price := pyOr best.price incoming.price
          quantity := qty }
      let inc2 := { incoming with remaining := incoming.remaining - qty }
      let best2 := { best with remaining := best.remaining - qty }
      if best2.remaining ≤ 0 then
        matchSellGo inc2 done rest (dictPop idx best.id) (trades ++ [t])
      else
        matchSellGo inc2 (done ++ [best2]) rest (dictInsert idx best.id best2) (trades ++ [t])

/-- The per-market book of `app/matching/orderbook.py`: buys sorted by price
descending then time ascending, sells sorted by price ascending then time
ascending, plus the order-id index `_orders_by_id`. -/
structure OrderBook where
  market_id : String
  buys : List Order
  sells : List Order
  orders_by_id : List (String × Order)
deriving DecidableEq, Repr

/-- A freshly constructed `OrderBook(market_id=...)`: both sides and the id
index start empty (dataclass field defaults). -/
def emptyBook (market_id : String) : OrderBook :=
  { market_id := market_id, buys := [], sells := [], orders_by_id := [] }

/-- The insertion sort key ingredient `(o.price or Decimal("0"))` used by
`_add_to_book`: the stored price, with `None` (and a stored zero, which the
`or` also maps to the literal zero) read as 0. -/
def priceD (o : Order) : ℚ :=
  o.price.getD 0

/-- The BUY-side comparison of `_add_to_book`: ascending on the key
`(-(o.price or 0), o.created_at)`, i.e. price descending then time
ascending. -/
def buyLE (a b : Order) : Bool :=
  decide (-(priceD a) < -(priceD b)) ||
    (decide (-(priceD a) = -(priceD b)) && decide (a.created_at ≤ b.created_at))

/-- The SELL-side comparison of `_add_to_book`: ascending on the key
`((o.price or 0), o.created_at)`, i.e. price ascending then time
ascending. -/
def sellLE (a b : Order) : Bool :=
  decide (priceD a < priceD b) ||
    (decide (priceD a = priceD b) && decide (a.created_at ≤ b.created_at))

/-- `_add_to_book`: append the order to its own side and re-sort the whole
side by the side's key (Python `list.sort`, embedded as a stable merge
sort). -/
def addToBook (b : OrderBook) (o : Order) : OrderBook :=
  if o.side = Side.BUY then
    { b with buys := (b.buys ++ [o]).mergeSort buyLE }
  else
    { b with sells := (b.sells ++ [o]).mergeSort sellLE }

/-- `OrderBook.add_order`: match the incoming order against the opposing
side (dispatch on `order.side`), then, if it still has remaining quantity,
rest it on its own side and register it in the id index; the residual result
is the resting order, or `none` when fully filled.  Returns the new book,
the trades, and the residual. -/
def OrderBook.add_order (b : OrderBook) (order : Order) :
    OrderBook × List Trade × Option Order :=
  let step :=
    if order.side = Side.BUY then
      let r := matchBuyGo order [] b.sells b.orders_by_id []
      ({ b with sells := r.2.1, orders_by_id := r.2.2.1 }, r.1, r.2.2.2)
    else
      let r := matchSellGo order [] b.buys b.orders_by_id []
      ({ b with buys := r.2.1, orders_by_id := r.2.2.1 }, r.1, r.2.2.2)
  match step with
  | (b1, inc, trades) =>
    if 0 < inc.remaining then
      let b2 := addToBook b1 inc
      ({ b2 with orders_by_id := dictInsert b2.orders_by_id inc.id inc },
        trades, some inc)
    else
      (b1, trades, none)

/-- The removal loop of `cancel_order`: scan the side list and delete the
first entry whose id matches, leaving the list unchanged when none does. -/
def removeFirstById : List Order → String → List Order
  | [], _ => []
  | o :: rest, oid => if o.id == oid then rest else o :: removeFirstById rest oid

/-- `OrderBook.cancel_order`: pop the order from the id index; if it was not
there, fail with `OrderNotFound` (the book is returned unchanged, matching
the exception raised before any mutation); otherwise delete the first entry
with its id from its side's list. -/
def OrderBook.cancel_order (b : OrderBook) (order_id : String) :
    OrderBook × Option MatchingEngineError :=
  match dictGet b.orders_by_id order_id with
  | none =>
    (b, some (.orderNotFound ("Order " ++ order_id ++ " not found in orderbook")))
  | some order =>
    let b1 := { b with orders_by_id := dictPop b.orders_by_id order_id }
    if order.side = Side.BUY then
      ({ b1 with buys := removeFirstById b1.buys order.id }, none)
    else
      ({ b1 with sells := removeFirstById b1.sells order.id }, none)

/-- The engine of `app/matching/engine.py`: a dict from market id to its
order book. -/
structure MatchingEngine where
  books : List (String × OrderBook)
deriving DecidableEq, Repr

/-- `MatchingEngine.__init__`: no books yet. -/
def emptyEngine : MatchingEngine :=
  { books := [] }

/-- `MatchingEngine.get_or_create_book`: return the market's book, creating
an empty one first when the market id is not yet a key. -/
def MatchingEngine.get_or_create_book (e : MatchingEngine) (market_id : String) :
    MatchingEngine × OrderBook :=
  match dictGet e.books market_id with
  | some bk => (e, bk)
  | none =>
    let bk := emptyBook market_id
    ({ books := dictInsert e.books market_id bk }, bk)

/-- `MatchingEngine.submit_order`: construct an Order with
`remaining = quantity`, obtain or create the market's book, delegate to
`add_order`, and return only the trades (the residual is discarded).  The
creation timestamp the Order dataclass would default is passed explicitly;
the book, mutated in place in Python, is written back to the books dict. -/
def MatchingEngine.submit_order (e : MatchingEngine)
    (order_id market_id user_id : String) (side : Side)
    (order_type : OrderType) (price : Option ℚ) (quantity : ℚ)
    (created_at : Nat) : MatchingEngine × List Trade :=
  let order : Order :=
    { id := order_id, market_id := market_id, user_id := user_id
      side := side, type := order_type, price := price
      quantity := quantity, remaining := quantity, created_at := created_at }
  match e.get_or_create_book market_id with
  | (e1, book) =>
    match book.add_order order with
    | (book2, trades, _residual) =>
      ({ books := dictInsert e1.books market_id book2 }, trades)

/-- `MatchingEngine.cancel_order`: `self._books.get(market_id)` followed by
`if not book` — a dataclass instance is always truthy, so only a missing key
fails — then delegation to the book's cancel, whose failure propagates
unchanged. -/
def MatchingEngine.cancel_order (e : MatchingEngine)
    (market_id order_id : String) : MatchingEngine × Option MatchingEngineError :=
  match dictGet e.books market_id with
  | none =>
    (e, some (.orderNotFound ("Market " ++ market_id ++ " has no orderbook")))
  | some book =>
    match book.cancel_order order_id with
    | (book2, err) => ({ books := dictInsert e.books market_id book2 }, err)

/-- The while loop of `_match_buy` once more, with the loop kept as a
partial-by-construction step function: `fuel` bounds the number of
iterations and the result is `none` when the bound is hit.  Used to state
termination of the matching loop. -/
def matchBuyFuel (fuel : Nat) (incoming : Order) (done todo : List Order)
    (idx : List (String × Order)) (trades : List Trade) :
    Option (Order × List Order × List (String × Order) × List Trade) :=
  match fuel with
  | 0 => none
  | f + 1 =>
    match todo with
    | [] => some (incoming, done, idx, trades)
    | best :: rest =>
      if incoming.remaining ≤ 0 then some (incoming, done ++ best :: rest, idx, trades)
      else if buyBreaks incoming best then some (incoming, done ++ best :: rest, idx, trades)
      else
        let qty := min incoming.remaining best.remaining
        let t : Trade :=
          { id := tradeId incoming.id best.id (trades.length + 1)
            market_id := incoming.market_id
            buy_order_id := incoming.id
            sell_order_id := best.id
            price := pyOr best.price incoming.price
            quantity := qty }
        let inc2 := { incoming with remaining := incoming.remaining - qty }
        let best2 := { best with remaining := best.remaining - qty }
        if best2.remaining ≤ 0 then
          matchBuyFuel f inc2 done rest (dictPop idx best.id) (trades ++ [t])
        else
          matchBuyFuel f inc2 (done ++ [best2]) rest (dictInsert idx best.id best2) (trades ++ [t])

/-- Fuel-bounded form of the `_match_sell` loop, mirroring `matchBuyFuel`. -/
def matchSellFuel (fuel : Nat) (incoming : Order) (done todo : List Order)
    (idx : List (String × Order)) (trades : List Trade) :
    Option (Order × List Order × List (String × Order) × List Trade) :=
  match fuel with
  | 0 => none
  | f + 1 =>
    match todo with
    | [] => some (incoming, done, idx, trades)
    | best :: rest =>
      if incoming.remaining ≤ 0 then some (incoming, done ++ best :: rest, idx, trades)
      else if sellBreaks incoming best then some (incoming, done ++ best :: rest, idx, trades)
      else
        let qty := min incoming.remaining best.remaining
        let t : Trade :=
          { id := tradeId best.id incoming.id (trades.length + 1)
            market_id := incoming.market_id
            buy_order_id := best.id
            sell_order_id := incoming.id
            price := pyOr best.price incoming.price
            quantity := qty }
        let inc2 := { incoming with remaining := incoming.remaining - qty }
        let best2 := { best with remaining := best.remaining - qty }
        if best2.remaining ≤ 0 then
          matchSellFuel f inc2 done rest (dictPop idx best.id) (trades ++ [t])
        else
          matchSellFuel f inc2 (done ++ [best2]) rest (dictInsert idx best.id best2) (trades ++ [t])

/-- Total quantity of a list of trades. -/
def sumQty (ts : List Trade) : ℚ :=
  (ts.map Trade.quantity).sum

/-- Total remaining quantity of a list of orders. -/
def sumRem (os : List Order) : ℚ :=
  (os.map Order.remaining).sum

/-- The effect of one matching pass on the scanned suffix of the opposing
side: a prefix of entries is deleted, then at most the next entry has its
remaining quantity reduced to a still-positive value, and everything beyond
is untouched. -/
inductive SuffixMod : List Order → List Order → Prop where
  | refl (l : List Order) : SuffixMod l l
  | drop (o : Order) (l l2 : List Order) (h : SuffixMod l l2) : SuffixMod (o :: l) l2
  | keep (o : Order) (r : ℚ) (l : List Order) (hr : 0 < r) (hle : r ≤ o.remaining) :
      SuffixMod (o :: l) ({ o with remaining := r } :: l)

/-- The Trade record built by one iteration of `_match_buy`, with `n` the
value `len(trades) + 1` at that point. -/
def buyTradeOf (incoming best : Order) (n : Nat) : Trade :=
  { id := tradeId incoming.id best.id n
    market_id := incoming.market_id
    buy_order_id := incoming.id
    sell_order_id := best.id
    price := pyOr best.price incoming.price
    quantity := min incoming.remaining best.remaining }

/-- The Trade record built by one iteration of `_match_sell`, with `n` the
value `len(trades) + 1` at that point. -/
def sellTradeOf (incoming best : Order) (n : Nat) : Trade :=
  { id := tradeId best.id incoming.id n
    market_id := incoming.market_id
    buy_order_id := best.id
    sell_order_id := incoming.id
    price := pyOr best.price incoming.price
    quantity := min incoming.remaining best.remaining }

/-- Book states reachable from a fresh book through the public operations,
with every submitted order carrying a positive quantity and
`remaining = quantity`, the way `MatchingEngine.submit_order` constructs
orders. -/
inductive ReachableQ : OrderBook → Prop where
  | empty (mid : String) : ReachableQ (emptyBook mid)
  | add (b : OrderBook) (o : Order) (hb : ReachableQ b) (hq : 0 < o.quantity)
      (hr : o.remaining = o.quantity) : ReachableQ (b.add_order o).1
  | cancel (b : OrderBook) (oid : String) (hb : ReachableQ b) :
      ReachableQ (b.cancel_order oid).1

/-- All orders held anywhere in the book carry strictly positive remaining
quantity. -/
def PosBook (b : OrderBook) : Prop :=
  (∀ o ∈ b.buys, 0 < o.remaining) ∧ (∀ o ∈ b.sells, 0 < o.remaining) ∧
    (∀ e ∈ b.orders_by_id, 0 < e.2.remaining)

/-- Book states reachable from a fresh book through the public operations
when every submitted order is a LIMIT order carrying a price in (0,1). -/
inductive ReachableL : OrderBook → Prop where
  | empty (mid : String) : ReachableL (emptyBook mid)
  | add (b : OrderBook) (o : Order) (p : ℚ) (hb : ReachableL b)
      (ht : o.type = OrderType.LIMIT) (hp : o.price = some p)
      (h0 : 0 < p) (h1 : p < 1) : ReachableL (b.add_order o).1
  | cancel (b : OrderBook) (oid : String) (hb : ReachableL b) :
      ReachableL (b.cancel_order oid).1

/-- Every resting order carries a price in (0,1), buys are sorted by the
BUY-side key and sells by the SELL-side key. -/
def PricedSorted (b : OrderBook) : Prop :=
  (∀ o ∈ b.buys, ∃ p, o.price = some p ∧ 0 < p ∧ p < 1) ∧
  (∀ o ∈ b.sells, ∃ p, o.price = some p ∧ 0 < p ∧ p < 1) ∧
  List.Pairwise (fun a b => buyLE a b = true) b.buys ∧
  List.Pairwise (fun a b => sellLE a b = true) b.sells

/-- The claim's BUY-side book order: both orders carry prices, and the
earlier entry has the strictly higher price or, at equal price, the earlier
creation time. -/
def BuyPriority (a b : Order) : Prop :=
  ∃ pa pb, a.price = some pa ∧ b.price = some pb ∧
    (pb < pa ∨ (pa = pb ∧ a.created_at ≤ b.created_at))

/-- The claim's SELL-side book order: both orders carry prices, and the
earlier entry has the strictly lower price or, at equal price, the earlier
creation time. -/
def SellPriority (a b : Order) : Prop :=
  ∃ pa pb, a.price = some pa ∧ b.price = some pb ∧
    (pa < pb ∨ (pa = pb ∧ a.created_at ≤ b.created_at))

/-- A concrete resting BUY LIMIT order at price 1/2, used by witnesses. -/
def witBuy1 : Order :=
  { id := "b1", market_id := "m", user_id := "u", side := Side.BUY
    type := OrderType.LIMIT, price := some (1/2), quantity := 5
    remaining := 5, created_at := 0 }

/-- A concrete resting BUY LIMIT order at price 3/5, used by witnesses. -/
def witBuy2 : Order :=
  { id := "b2", market_id := "m", user_id := "u", side := Side.BUY
    type := OrderType.LIMIT, price := some (3/5), quantity := 4
    remaining := 4, created_at := 1 }

/-- A concrete aggressive BUY LIMIT order at price 7/10, used by witnesses. -/
def witBuy3 : Order :=
  { id := "b3", market_id := "m", user_id := "u", side := Side.BUY
    type := OrderType.LIMIT, price := some (7/10), quantity := 2
    remaining := 2, created_at := 2 }

/-- A concrete resting SELL LIMIT order at price 2/5, used by witnesses. -/
def witSell1 : Order :=
  { id := "s1", market_id := "m", user_id := "u", side := Side.SELL
    type := OrderType.LIMIT, price := some (2/5), quantity := 10
    remaining := 10, created_at := 0 }

/-- A concrete book with one resting SELL LIMIT order, written directly as a
record, used by witnesses. -/
def witBookS : OrderBook :=
  { market_id := "m", buys := [], sells := [witSell1]
    orders_by_id := [("s1", witSell1)] }

/-- A concrete MARKET BUY order, used by witnesses. -/
def witMkt : Order :=
  { id := "mk1", market_id := "m", user_id := "u", side := Side.BUY
    type := OrderType.MARKET, price := none, quantity := 3
    remaining := 3, created_at := 3 }

/-- A concrete book holding one resting BUY order, written directly as a
record, used by the cancel witnesses. -/
def witBookC : OrderBook :=
  { market_id := "m", buys := [witBuy1], sells := []
    orders_by_id := [("b1", witBuy1)] }

/-- A concrete engine holding one market book, used by the engine cancel
witness. -/
def witEngine : MatchingEngine :=
  { books := [("m", witBookC)] }

@[simp] theorem sumQty_nil : sumQty [] = 0 := rfl

@[simp] theorem sumQty_cons (t : Trade) (ts : List Trade) :
    sumQty (t :: ts) = t.quantity + sumQty ts := by
  simp [sumQty]

@[simp] theorem sumQty_append (ts us : List Trade) :
    sumQty (ts ++ us) = sumQty ts + sumQty us := by
  simp [sumQty]

@[simp] theorem sumRem_nil : sumRem [] = 0 := rfl

@[simp] theorem sumRem_cons (o : Order) (os : List Order) :
    sumRem (o :: os) = o.remaining + sumRem os := by
  simp [sumRem]

theorem dictGet_eq_none_iff {α : Type} (d : List (String × α)) (k : String) :
    dictGet d k = none ↔ ∀ e ∈ d, e.1 ≠ k := by
  simp [dictGet, List.find?_eq_none]

theorem mem_dictPop {α : Type} {d : List (String × α)} {k : String}
    {e : String × α} (h : e ∈ dictPop d k) : e ∈ d :=
  List.mem_of_mem_filter h

theorem mem_dictInsert {α : Type} {d : List (String × α)} {k : String}
    {v : α} {e : String × α} (h : e ∈ dictInsert d k v) :
    e ∈ d ∨ e = (k, v) := by
  unfold dictInsert at h
  split at h
  · obtain ⟨a, ha, hae⟩ := List.mem_map.mp h
    by_cases hak : (a.1 == k) = true
    · rw [if_pos hak] at hae
      exact Or.inr hae.symm
    · rw [if_neg hak] at hae
      exact Or.inl (hae ▸ ha)
  · rcases List.mem_append.mp h with h | h
    · exact Or.inl h
    · simpa using Or.inr (List.mem_singleton.mp h)

@[simp] theorem dictGet_dictInsert_self {α : Type} (d : List (String × α))
    (k : String) (v : α) : dictGet (dictInsert d k v) k = some v := by
  unfold dictGet dictInsert
  split
  case isTrue h =>
    induction d with
    | nil => simp at h
    | cons a d ih =>
      by_cases hak : (a.1 == k) = true
      · rw [List.map_cons, if_pos hak, List.find?_cons]
        simp
      · have hak2 : (a.1 == k) = false := by simpa using hak
        rw [List.map_cons, if_neg hak, List.find?_cons, hak2]
        exact ih (by simpa [hak2] using h)
  case isFalse h =>
    have hall : List.find? (fun e => e.1 == k) d = none := by
      rw [List.find?_eq_none]
      intro e he
      simpa using fun hek => h (List.any_eq_true.mpr ⟨e, he, by simpa using hek⟩)
    rw [List.find?_append, hall, Option.none_or, List.find?_cons_of_pos _ (by simp)]
    rfl

@[simp] theorem dictGet_dictPop_self {α : Type} (d : List (String × α))
    (k : String) : dictGet (dictPop d k) k = none := by
  rw [dictGet_eq_none_iff]
  intro e he
  have := (List.mem_filter.mp he).2
  simpa using this

theorem dictGet_dictPop_none {α : Type} (d : List (String × α)) (k x : String)
    (h : dictGet d k = none) : dictGet (dictPop d x) k = none := by
  rw [dictGet_eq_none_iff] at h ⊢
  exact fun e he => h e (mem_dictPop he)

theorem dictGet_dictInsert_none {α : Type} (d : List (String × α))
    (k x : String) (v : α) (h : dictGet d k = none) (hxk : x ≠ k) :
    dictGet (dictInsert d x v) k = none := by
  rw [dictGet_eq_none_iff] at h ⊢
  intro e he
  rcases mem_dictInsert he with he2 | he2
  · exact h e he2
  · rw [he2]
    exact hxk

theorem SuffixMod.mem {l l2 : List Order} (h : SuffixMod l l2) :
    ∀ x ∈ l2, ∃ y ∈ l, x = y ∨ ∃ r, 0 < r ∧ x = { y with remaining := r } := by
  induction h with
  | refl l => exact fun x hx => ⟨x, hx, Or.inl rfl⟩
  | drop o l l2 h ih =>
    intro x hx
    obtain ⟨y, hy, hxy⟩ := ih x hx
    exact ⟨y, List.mem_cons_of_mem o hy, hxy⟩
  | keep o r l hr hle =>
    intro x hx
    rcases List.mem_cons.mp hx with hx | hx
    · exact ⟨o, List.mem_cons_self o l, Or.inr ⟨r, hr, hx⟩⟩
    · exact ⟨x, List.mem_cons_of_mem o hx, Or.inl rfl⟩

theorem SuffixMod.pairwise {R : Order → Order → Prop}
    (hL : ∀ a b r, R a b → R { a with remaining := r } b)
    (hRr : ∀ a b r, R a b → R a { b with remaining := r })
    {l l2 : List Order} (h : SuffixMod l l2) (done : List Order)
    (hp : List.Pairwise R (done ++ l)) : List.Pairwise R (done ++ l2) := by
  induction h generalizing done with
  | refl l => exact hp
  | drop o l l2 h ih =>
    refine ih done ?_
    exact List.Pairwise.sublist
      (List.Sublist.append (List.Sublist.refl done) (List.sublist_cons_self o l)) hp
  | keep o r l hr hle =>
    rw [List.pairwise_append] at hp ⊢
    obtain ⟨hd, hol, hdt⟩ := hp
    refine ⟨hd, ?_, ?_⟩
    · rw [List.pairwise_cons] at hol ⊢
      exact ⟨fun x hx => hL o x r (hol.1 x hx), hol.2⟩
    · intro a ha b hb
      rcases List.mem_cons.mp hb with hb | hb
      · exact hb ▸ hRr a o r (hdt a ha o (List.mem_cons_self o l))
      · exact hdt a ha b (List.mem_cons_of_mem o hb)

theorem matchBuyGo_exit (incoming : Order) (done todo : List Order)
    (idx : List (String × Order)) (trades : List Trade)
    (h : incoming.remaining ≤ 0) :
    matchBuyGo incoming done todo idx trades = (incoming, done ++ todo, idx, trades) := by
  cases todo with
  | nil => simp [matchBuyGo]
  | cons best rest => simp [matchBuyGo, h]

theorem matchSellGo_exit (incoming : Order) (done todo : List Order)
    (idx : List (String × Order)) (trades : List Trade)
    (h : incoming.remaining ≤ 0) :
    matchSellGo incoming done todo idx trades = (incoming, done ++ todo, idx, trades) := by
  cases todo with
  | nil => simp [matchSellGo]
  | cons best rest => simp [matchSellGo, h]

theorem min_eq_right_of_nonpos {a b : ℚ} (h : b - min a b ≤ 0) : min a b = b :=
  le_antisymm (min_le_right a b) (by linarith)

theorem min_eq_left_of_pos {a b : ℚ} (h : 0 < b - min a b) : min a b = a := by
  rcases min_choice a b with h1 | h1
  · exact h1
  · rw [h1] at h
    linarith

theorem matchBuyGo_cons_break (incoming best : Order) (done rest : List Order)
    (idx : List (String × Order)) (acc : List Trade)
    (hbr : buyBreaks incoming best = true) :
    matchBuyGo incoming done (best :: rest) idx acc =
      (incoming, done ++ best :: rest, idx, acc) := by
  simp [matchBuyGo, hbr]

theorem matchSellGo_cons_break (incoming best : Order) (done rest : List Order)
    (idx : List (String × Order)) (acc : List Trade)
    (hbr : sellBreaks incoming best = true) :
    matchSellGo incoming done (best :: rest) idx acc =
      (incoming, done ++ best :: rest, idx, acc) := by
  simp [matchSellGo, hbr]

theorem matchBuyGo_cons_eat (incoming best : Order) (done rest : List Order)
    (idx : List (String × Order)) (acc : List Trade)
    (h0 : 0 < incoming.remaining) (hbr : buyBreaks incoming best = false)
    (hdel : best.remaining - min incoming.remaining best.remaining ≤ 0) :
    matchBuyGo incoming done (best :: rest) idx acc =
      matchBuyGo
        { incoming with remaining := incoming.remaining - min incoming.remaining best.remaining }
        done rest (dictPop idx best.id)
        (acc ++ [buyTradeOf incoming best (acc.length + 1)]) := by
  rw [matchBuyGo]
  rw [if_neg (not_le.mpr h0), hbr]
  simp only [Bool.false_eq_true, if_false]
  rw [if_pos hdel]
  rfl

theorem matchSellGo_cons_eat (incoming best : Order) (done rest : List Order)
    (idx : List (String × Order)) (acc : List Trade)
    (h0 : 0 < incoming.remaining) (hbr : sellBreaks incoming best = false)
    (hdel : best.remaining - min incoming.remaining best.remaining ≤ 0) :
    matchSellGo incoming done (best :: rest) idx acc =
      matchSellGo
        { incoming with remaining := incoming.remaining - min incoming.remaining best.remaining }
        done rest (dictPop idx best.id)
        (acc ++ [sellTradeOf incoming best (acc.length + 1)]) := by
  rw [matchSellGo]
  rw [if_neg (not_le.mpr h0), hbr]
  simp only [Bool.false_eq_true, if_false]
  rw [if_pos hdel]
  rfl

theorem matchBuyGo_cons_keep (incoming best : Order) (done rest : List Order)
    (idx : List (String × Order)) (acc : List Trade)
    (h0 : 0 < incoming.remaining) (hbr : buyBreaks incoming best = false)
    (hkeep : 0 < best.remaining - min incoming.remaining best.remaining) :
    matchBuyGo incoming done (best :: rest) idx acc =
      ({ incoming with remaining := incoming.remaining - min incoming.remaining best.remaining },
       done ++ { best with remaining := best.remaining - min incoming.remaining best.remaining } :: rest,
       dictInsert idx best.id
         { best with remaining := best.remaining - min incoming.remaining best.remaining },
       acc ++ [buyTradeOf incoming best (acc.length + 1)]) := by
  rw [matchBuyGo]
  rw [if_neg (not_le.mpr h0), hbr]
  simp only [Bool.false_eq_true, if_false]
  rw [if_neg (not_le.mpr hkeep)]
  rw [matchBuyGo_exit _ _ _ _ _ (by
    have := min_eq_left_of_pos hkeep
    simp [this])]
  simp [buyTradeOf]

theorem matchSellGo_cons_keep (incoming best : Order) (done rest : List Order)
    (idx : List (String × Order)) (acc : List Trade)
    (h0 : 0 < incoming.remaining) (hbr : sellBreaks incoming best = false)
    (hkeep : 0 < best.remaining - min incoming.remaining best.remaining) :
    matchSellGo incoming done (best :: rest) idx acc =
      ({ incoming with remaining := incoming.remaining - min incoming.remaining best.remaining },
       done ++ { best with remaining := best.remaining - min incoming.remaining best.remaining } :: rest,
       dictInsert idx best.id
         { best with remaining := best.remaining - min incoming.remaining best.remaining },
       acc ++ [sellTradeOf incoming best (acc.length + 1)]) := by
  rw [matchSellGo]
  rw [if_neg (not_le.mpr h0), hbr]
  simp only [Bool.false_eq_true, if_false]
  rw [if_neg (not_le.mpr hkeep)]
  rw [matchSellGo_exit _ _ _ _ _ (by
    have := min_eq_left_of_pos hkeep
    simp [this])]
  simp [sellTradeOf]

theorem matchBuyGo_shape (todo : List Order) (incoming : Order) (done : List Order)
    (idx : List (String × Order)) (acc : List Trade) :
    ∃ out2 new,
      (matchBuyGo incoming done todo idx acc).2.1 = done ++ out2 ∧
      (matchBuyGo incoming done todo idx acc).2.2.2 = acc ++ new ∧
      (matchBuyGo incoming done todo idx acc).1 =
        { incoming with remaining := incoming.remaining - sumQty new } ∧
      sumRem todo = sumRem out2 + sumQty new ∧
      SuffixMod todo out2 ∧
      (0 ≤ incoming.remaining → 0 ≤ incoming.remaining - sumQty new) := by
  induction todo generalizing incoming done idx acc with
  | nil =>
    refine ⟨[], [], ?_, ?_, ?_, ?_, SuffixMod.refl [], ?_⟩ <;> simp [matchBuyGo]
  | cons best rest ih =>
    by_cases h0 : incoming.remaining ≤ 0
    · refine ⟨best :: rest, [], ?_, ?_, ?_, ?_, SuffixMod.refl _, ?_⟩ <;>
        simp [matchBuyGo_exit _ _ _ _ _ h0]
    · push_neg at h0
      by_cases hbr : buyBreaks incoming best = true
      · refine ⟨best :: rest, [], ?_, ?_, ?_, ?_, SuffixMod.refl _, ?_⟩ <;>
          simp [matchBuyGo_cons_break _ _ _ _ _ _ hbr]
      · rw [Bool.not_eq_true] at hbr
        by_cases hdel : best.remaining - min incoming.remaining best.remaining ≤ 0
        · rw [matchBuyGo_cons_eat _ _ _ _ _ _ h0 hbr hdel]
          obtain ⟨out2, new, e1, e2, e3, e4, e5, e6⟩ :=
            ih { incoming with remaining :=
                  incoming.remaining - min incoming.remaining best.remaining }
              done (dictPop idx best.id) (acc ++ [buyTradeOf incoming best (acc.length + 1)])
          refine ⟨out2, buyTradeOf incoming best (acc.length + 1) :: new,
            e1, ?_, ?_, ?_, SuffixMod.drop best rest out2 e5, ?_⟩
          · rw [e2]
            simp
          · rw [e3]
            simp only [sumQty_cons, buyTradeOf, sub_sub]
          · have hq : min incoming.remaining best.remaining = best.remaining :=
              min_eq_right_of_nonpos hdel
            simp only [sumRem_cons, sumQty_cons, buyTradeOf] at e4 ⊢
            simp only [hq] at e4 ⊢
            linarith
          · intro hnn
            have h1 : (0 : ℚ) ≤ incoming.remaining - min incoming.remaining best.remaining := by
              have := min_le_left incoming.remaining best.remaining
              linarith
            have h2 := e6 h1
            simp only [sumQty_cons, buyTradeOf] at h2 ⊢
            linarith
        · push_neg at hdel
          rw [matchBuyGo_cons_keep _ _ _ _ _ _ h0 hbr hdel]
          refine ⟨{ best with remaining :=
              best.remaining - min incoming.remaining best.remaining } :: rest,
            [buyTradeOf incoming best (acc.length + 1)], rfl, rfl, ?_, ?_,
            SuffixMod.keep best _ rest hdel ?_, ?_⟩
          · simp [buyTradeOf]
          · simp only [sumRem_cons, sumQty_cons, sumQty_nil, buyTradeOf]
            ring
          · have : (0 : ℚ) ≤ min incoming.remaining best.remaining :=
              le_of_lt (lt_of_lt_of_le h0 (by
                rw [min_eq_left_of_pos hdel]))
            linarith
          · intro hnn
            have hq := min_eq_left_of_pos hdel
            simp only [sumQty_cons, sumQty_nil, buyTradeOf, hq]
            linarith

theorem matchSellGo_shape (todo : List Order) (incoming : Order) (done : List Order)
    (idx : List (String × Order)) (acc : List Trade) :
    ∃ out2 new,
      (matchSellGo incoming done todo idx acc).2.1 = done ++ out2 ∧
      (matchSellGo incoming done todo idx acc).2.2.2 = acc ++ new ∧
      (matchSellGo incoming done todo idx acc).1 =
        { incoming with remaining := incoming.remaining - sumQty new } ∧
      sumRem todo = sumRem out2 + sumQty new ∧
      SuffixMod todo out2 ∧
      (0 ≤ incoming.remaining → 0 ≤ incoming.remaining - sumQty new) := by
  induction todo generalizing incoming done idx acc with
  | nil =>
    refine ⟨[], [], ?_, ?_, ?_, ?_, SuffixMod.refl [], ?_⟩ <;> simp [matchSellGo]
  | cons best rest ih =>
    by_cases h0 : incoming.remaining ≤ 0
    · refine ⟨best :: rest, [], ?_, ?_, ?_, ?_, SuffixMod.refl _, ?_⟩ <;>
        simp [matchSellGo_exit _ _ _ _ _ h0]
    · push_neg at h0
      by_cases hbr : sellBreaks incoming best = true
      · refine ⟨best :: rest, [], ?_, ?_, ?_, ?_, SuffixMod.refl _, ?_⟩ <;>
          simp [matchSellGo_cons_break _ _ _ _ _ _ hbr]
      · rw [Bool.not_eq_true] at hbr
        by_cases hdel : best.remaining - min incoming.remaining best.remaining ≤ 0
        · rw [matchSellGo_cons_eat _ _ _ _ _ _ h0 hbr hdel]
          obtain ⟨out2, new, e1, e2, e3, e4, e5, e6⟩ :=
            ih { incoming with remaining :=
                  incoming.remaining - min incoming.remaining best.remaining }
              done (dictPop idx best.id) (acc ++ [sellTradeOf incoming best (acc.length + 1)])
          refine ⟨out2, sellTradeOf incoming best (acc.length + 1) :: new,
            e1, ?_, ?_, ?_, SuffixMod.drop best rest out2 e5, ?_⟩
          · rw [e2]
            simp
          · rw [e3]
            simp only [sumQty_cons, sellTradeOf, sub_sub]
          · have hq : min incoming.remaining best.remaining = best.remaining :=
              min_eq_right_of_nonpos hdel
            simp only [sumRem_cons, sumQty_cons, sellTradeOf] at e4 ⊢
            simp only [hq] at e4 ⊢
            linarith
          · intro hnn
            have h1 : (0 : ℚ) ≤ incoming.remaining - min incoming.remaining best.remaining := by
              have := min_le_left incoming.remaining best.remaining
              linarith
            have h2 := e6 h1
            simp only [sumQty_cons, sellTradeOf] at h2 ⊢
            linarith
        · push_neg at hdel
          rw [matchSellGo_cons_keep _ _ _ _ _ _ h0 hbr hdel]
          refine ⟨{ best with remaining :=
              best.remaining - min incoming.remaining best.remaining } :: rest,
            [sellTradeOf incoming best (acc.length + 1)], rfl, rfl, ?_, ?_,
            SuffixMod.keep best _ rest hdel ?_, ?_⟩
          · simp [sellTradeOf]
          · simp only [sumRem_cons, sumQty_cons, sumQty_nil, sellTradeOf]
            ring
          · have : (0 : ℚ) ≤ min incoming.remaining best.remaining :=
              le_of_lt (lt_of_lt_of_le h0 (by
                rw [min_eq_left_of_pos hdel]))
            linarith
          · intro hnn
            have hq := min_eq_left_of_pos hdel
            simp only [sumQty_cons, sumQty_nil, sellTradeOf, hq]
            linarith

theorem matchBuyGo_trades (todo : List Order) (incoming : Order) (done : List Order)
    (idx : List (String × Order)) (acc : List Trade) :
    ∃ new,
      (matchBuyGo incoming done todo idx acc).2.2.2 = acc ++ new ∧
      new.length ≤ todo.length ∧
      (∀ k, ∀ (hk : k < new.length) (hk2 : k < todo.length),
        (new.get ⟨k, hk⟩).buy_order_id = incoming.id ∧
        (new.get ⟨k, hk⟩).sell_order_id = (todo.get ⟨k, hk2⟩).id ∧
        (new.get ⟨k, hk⟩).price = pyOr (todo.get ⟨k, hk2⟩).price incoming.price ∧
        (new.get ⟨k, hk⟩).quantity =
          min (incoming.remaining - sumQty (new.take k)) (todo.get ⟨k, hk2⟩).remaining ∧
        buyBreaks incoming (todo.get ⟨k, hk2⟩) = false) ∧
      (new = [] → incoming.remaining ≤ 0 ∨ todo = [] ∨
        ∃ best rest, todo = best :: rest ∧ buyBreaks incoming best = true) := by
  induction todo generalizing incoming done idx acc with
  | nil =>
    refine ⟨[], by simp [matchBuyGo], by simp, ?_, fun _ => Or.inr (Or.inl rfl)⟩
    intro k hk hk2
    exact absurd hk (by simp)
  | cons best rest ih =>
    by_cases h0 : incoming.remaining ≤ 0
    · refine ⟨[], by simp [matchBuyGo_exit _ _ _ _ _ h0], by simp, ?_, fun _ => Or.inl h0⟩
      intro k hk hk2
      exact absurd hk (by simp)
    · push_neg at h0
      by_cases hbr : buyBreaks incoming best = true
      · refine ⟨[], by simp [matchBuyGo_cons_break _ _ _ _ _ _ hbr], by simp, ?_,
          fun _ => Or.inr (Or.inr ⟨best, rest, rfl, hbr⟩)⟩
        intro k hk hk2
        exact absurd hk (by simp)
      · rw [Bool.not_eq_true] at hbr
        by_cases hdel : best.remaining - min incoming.remaining best.remaining ≤ 0
        · rw [matchBuyGo_cons_eat _ _ _ _ _ _ h0 hbr hdel]
          obtain ⟨new2, e1, e2, e3, _e4⟩ :=
            ih { incoming with remaining :=
                  incoming.remaining - min incoming.remaining best.remaining }
              done (dictPop idx best.id) (acc ++ [buyTradeOf incoming best (acc.length + 1)])
          refine ⟨buyTradeOf incoming best (acc.length + 1) :: new2, ?_, ?_, ?_, by simp⟩
          · rw [e1]
            simp
          · simpa using Nat.succ_le_succ e2
          · intro k hk hk2
            cases k with
            | zero =>
              refine ⟨rfl, rfl, rfl, ?_, hbr⟩
              simp [buyTradeOf]
            | succ k =>
              have hka : k < new2.length := by simpa using hk
              have hkb : k < rest.length := by simpa using hk2
              obtain ⟨p1, p2, p3, p4, p5⟩ := e3 k hka hkb
              refine ⟨p1, p2, p3, ?_, p5⟩
              simpa [List.take_succ_cons, sumQty_cons, buyTradeOf, sub_sub] using p4
        · push_neg at hdel
          rw [matchBuyGo_cons_keep _ _ _ _ _ _ h0 hbr hdel]
          refine ⟨[buyTradeOf incoming best (acc.length + 1)], rfl, by simp, ?_, by simp⟩
          intro k hk hk2
          cases k with
          | zero => exact ⟨rfl, rfl, rfl, by simp [buyTradeOf], hbr⟩
          | succ k => exact absurd hk (by simp)

theorem matchSellGo_trades (todo : List Order) (incoming : Order) (done : List Order)
    (idx : List (String × Order)) (acc : List Trade) :
    ∃ new,
      (matchSellGo incoming done todo idx acc).2.2.2 = acc ++ new ∧
      new.length ≤ todo.length ∧
      (∀ k, ∀ (hk : k < new.length) (hk2 : k < todo.length),
        (new.get ⟨k, hk⟩).sell_order_id = incoming.id ∧
        (new.get ⟨k, hk⟩).buy_order_id = (todo.get ⟨k, hk2⟩).id ∧
        (new.get ⟨k, hk⟩).price = pyOr (todo.get ⟨k, hk2⟩).price incoming.price ∧
        (new.get ⟨k, hk⟩).quantity =
          min (incoming.remaining - sumQty (new.take k)) (todo.get ⟨k, hk2⟩).remaining ∧
        sellBreaks incoming (todo.get ⟨k, hk2⟩) = false) ∧
      (new = [] → incoming.remaining ≤ 0 ∨ todo = [] ∨
        ∃ best rest, todo = best :: rest ∧ sellBreaks incoming best = true) := by
  induction todo generalizing incoming done idx acc with
  | nil =>
    refine ⟨[], by simp [matchSellGo], by simp, ?_, fun _ => Or.inr (Or.inl rfl)⟩
    intro k hk hk2
    exact absurd hk (by simp)
  | cons best rest ih =>
    by_cases h0 : incoming.remaining ≤ 0
    · refine ⟨[], by simp [matchSellGo_exit _ _ _ _ _ h0], by simp, ?_, fun _ => Or.inl h0⟩
      intro k hk hk2
      exact absurd hk (by simp)
    · push_neg at h0
      by_cases hbr : sellBreaks incoming best = true
      · refine ⟨[], by simp [matchSellGo_cons_break _ _ _ _ _ _ hbr], by simp, ?_,
          fun _ => Or.inr (Or.inr ⟨best, rest, rfl, hbr⟩)⟩
        intro k hk hk2
        exact absurd hk (by simp)
      · rw [Bool.not_eq_true] at hbr
        by_cases hdel : best.remaining - min incoming.remaining best.remaining ≤ 0
        · rw [matchSellGo_cons_eat _ _ _ _ _ _ h0 hbr hdel]
          obtain ⟨new2, e1, e2, e3, _e4⟩ :=
            ih { incoming with remaining :=
                  incoming.remaining - min incoming.remaining best.remaining }
              done (dictPop idx best.id) (acc ++ [sellTradeOf incoming best (acc.length + 1)])
          refine ⟨sellTradeOf incoming best (acc.length + 1) :: new2, ?_, ?_, ?_, by simp⟩
          · rw [e1]
            simp
          · simpa using Nat.succ_le_succ e2
          · intro k hk hk2
            cases k with
            | zero =>
              refine ⟨rfl, rfl, rfl, ?_, hbr⟩
              simp [sellTradeOf]
            | succ k =>
              have hka : k < new2.length := by simpa using hk
              have hkb : k < rest.length := by simpa using hk2
              obtain ⟨p1, p2, p3, p4, p5⟩ := e3 k hka hkb
              refine ⟨p1, p2, p3, ?_, p5⟩
              simpa [List.take_succ_cons, sumQty_cons, sellTradeOf, sub_sub] using p4
        · push_neg at hdel
          rw [matchSellGo_cons_keep _ _ _ _ _ _ h0 hbr hdel]
          refine ⟨[sellTradeOf incoming best (acc.length + 1)], rfl, by simp, ?_, by simp⟩
          intro k hk hk2
          cases k with
          | zero => exact ⟨rfl, rfl, rfl, by simp [sellTradeOf], hbr⟩
          | succ k => exact absurd hk (by simp)

theorem matchBuyGo_nil (incoming : Order) (done : List Order)
    (idx : List (String × Order)) (acc : List Trade) :
    matchBuyGo incoming done [] idx acc = (incoming, done, idx, acc) := rfl

theorem matchSellGo_nil (incoming : Order) (done : List Order)
    (idx : List (String × Order)) (acc : List Trade) :
    matchSellGo incoming done [] idx acc = (incoming, done, idx, acc) := rfl

theorem matchBuyGo_idx (todo : List Order) (incoming : Order) (done : List Order)
    (idx : List (String × Order)) (acc : List Trade) :
    ((∀ e ∈ idx, 0 < e.2.remaining) →
      ∀ e ∈ (matchBuyGo incoming done todo idx acc).2.2.1, 0 < e.2.remaining) ∧
    (∀ k0, dictGet idx k0 = none → (∀ b ∈ todo, b.id ≠ k0) →
      dictGet (matchBuyGo incoming done todo idx acc).2.2.1 k0 = none) := by
  induction todo generalizing incoming done idx acc with
  | nil =>
    rw [matchBuyGo_nil]
    exact ⟨fun h => h, fun k0 h _ => h⟩
  | cons best rest ih =>
    by_cases h0 : incoming.remaining ≤ 0
    · rw [matchBuyGo_exit _ _ _ _ _ h0]
      exact ⟨fun h => h, fun k0 h _ => h⟩
    · push_neg at h0
      by_cases hbr : buyBreaks incoming best = true
      · rw [matchBuyGo_cons_break _ _ _ _ _ _ hbr]
        exact ⟨fun h => h, fun k0 h _ => h⟩
      · rw [Bool.not_eq_true] at hbr
        by_cases hdel : best.remaining - min incoming.remaining best.remaining ≤ 0
        · rw [matchBuyGo_cons_eat _ _ _ _ _ _ h0 hbr hdel]
          refine ⟨?_, ?_⟩
          · intro h
            exact (ih _ _ _ _).1 (fun e he => h e (mem_dictPop he))
          · intro k0 hnone hids
            exact (ih _ _ _ _).2 k0 (dictGet_dictPop_none _ _ _ hnone)
              (fun b hb => hids b (List.mem_cons_of_mem best hb))
        · push_neg at hdel
          rw [matchBuyGo_cons_keep _ _ _ _ _ _ h0 hbr hdel]
          refine ⟨?_, ?_⟩
          · intro h e he
            rcases mem_dictInsert he with he2 | he2
            · exact h e he2
            · rw [he2]
              exact hdel
          · intro k0 hnone hids
            exact dictGet_dictInsert_none _ _ _ _ hnone
              (hids best (List.mem_cons_self best rest))

theorem matchSellGo_idx (todo : List Order) (incoming : Order) (done : List Order)
    (idx : List (String × Order)) (acc : List Trade) :
    ((∀ e ∈ idx, 0 < e.2.remaining) →
      ∀ e ∈ (matchSellGo incoming done todo idx acc).2.2.1, 0 < e.2.remaining) ∧
    (∀ k0, dictGet idx k0 = none → (∀ b ∈ todo, b.id ≠ k0) →
      dictGet (matchSellGo incoming done todo idx acc).2.2.1 k0 = none) := by
  induction todo generalizing incoming done idx acc with
  | nil =>
    rw [matchSellGo_nil]
    exact ⟨fun h => h, fun k0 h _ => h⟩
  | cons best rest ih =>
    by_cases h0 : incoming.remaining ≤ 0
    · rw [matchSellGo_exit _ _ _ _ _ h0]
      exact ⟨fun h => h, fun k0 h _ => h⟩
    · push_neg at h0
      by_cases hbr : sellBreaks incoming best = true
      · rw [matchSellGo_cons_break _ _ _ _ _ _ hbr]
        exact ⟨fun h => h, fun k0 h _ => h⟩
      · rw [Bool.not_eq_true] at hbr
        by_cases hdel : best.remaining - min incoming.remaining best.remaining ≤ 0
        · rw [matchSellGo_cons_eat _ _ _ _ _ _ h0 hbr hdel]
          refine ⟨?_, ?_⟩
          · intro h
            exact (ih _ _ _ _).1 (fun e he => h e (mem_dictPop he))
          · intro k0 hnone hids
            exact (ih _ _ _ _).2 k0 (dictGet_dictPop_none _ _ _ hnone)
              (fun b hb => hids b (List.mem_cons_of_mem best hb))
        · push_neg at hdel
          rw [matchSellGo_cons_keep _ _ _ _ _ _ h0 hbr hdel]
          refine ⟨?_, ?_⟩
          · intro h e he
            rcases mem_dictInsert he with he2 | he2
            · exact h e he2
            · rw [he2]
              exact hdel
          · intro k0 hnone hids
            exact dictGet_dictInsert_none _ _ _ _ hnone
              (hids best (List.mem_cons_self best rest))

theorem buyLE_trans (a b c : Order) (h1 : buyLE a b = true) (h2 : buyLE b c = true) :
    buyLE a c = true := by
  simp only [buyLE, Bool.or_eq_true, Bool.and_eq_true, decide_eq_true_eq] at *
  rcases h1 with h1 | ⟨h1, h1t⟩ <;> rcases h2 with h2 | ⟨h2, h2t⟩
  · exact Or.inl (lt_trans h1 h2)
  · exact Or.inl (lt_of_lt_of_eq h1 h2)
  · exact Or.inl (lt_of_eq_of_lt h1 h2)
  · exact Or.inr ⟨h1.trans h2, le_trans h1t h2t⟩

theorem buyLE_total (a b : Order) : (buyLE a b || buyLE b a) = true := by
  simp only [buyLE, Bool.or_eq_true, Bool.and_eq_true, decide_eq_true_eq]
  rcases lt_trichotomy (-(priceD a)) (-(priceD b)) with h | h | h
  · exact Or.inl (Or.inl h)
  · rcases le_total a.created_at b.created_at with ht | ht
    · exact Or.inl (Or.inr ⟨h, ht⟩)
    · exact Or.inr (Or.inr ⟨h.symm, ht⟩)
  · exact Or.inr (Or.inl h)

theorem sellLE_trans (a b c : Order) (h1 : sellLE a b = true) (h2 : sellLE b c = true) :
    sellLE a c = true := by
  simp only [sellLE, Bool.or_eq_true, Bool.and_eq_true, decide_eq_true_eq] at *
  rcases h1 with h1 | ⟨h1, h1t⟩ <;> rcases h2 with h2 | ⟨h2, h2t⟩
  · exact Or.inl (lt_trans h1 h2)
  · exact Or.inl (lt_of_lt_of_eq h1 h2)
  · exact Or.inl (lt_of_eq_of_lt h1 h2)
  · exact Or.inr ⟨h1.trans h2, le_trans h1t h2t⟩

theorem sellLE_total (a b : Order) : (sellLE a b || sellLE b a) = true := by
  simp only [sellLE, Bool.or_eq_true, Bool.and_eq_true, decide_eq_true_eq]
  rcases lt_trichotomy (priceD a) (priceD b) with h | h | h
  · exact Or.inl (Or.inl h)
  · rcases le_total a.created_at b.created_at with ht | ht
    · exact Or.inl (Or.inr ⟨h, ht⟩)
    · exact Or.inr (Or.inr ⟨h.symm, ht⟩)
  · exact Or.inr (Or.inl h)

theorem pairwise_mergeSort_buyLE (l : List Order) :
    List.Pairwise (fun a b => buyLE a b = true) (l.mergeSort buyLE) :=
  List.sorted_mergeSort buyLE_trans buyLE_total l

theorem pairwise_mergeSort_sellLE (l : List Order) :
    List.Pairwise (fun a b => sellLE a b = true) (l.mergeSort sellLE) :=
  List.sorted_mergeSort sellLE_trans sellLE_total l

theorem buyLE_rem_left (a b : Order) (r : ℚ) (h : buyLE a b = true) :
    buyLE { a with remaining := r } b = true := h

theorem buyLE_rem_right (a b : Order) (r : ℚ) (h : buyLE a b = true) :
    buyLE a { b with remaining := r } = true := h

theorem sellLE_rem_left (a b : Order) (r : ℚ) (h : sellLE a b = true) :
    sellLE { a with remaining := r } b = true := h

theorem sellLE_rem_right (a b : Order) (r : ℚ) (h : sellLE a b = true) :
    sellLE a { b with remaining := r } = true := h

theorem removeFirstById_sublist (l : List Order) (oid : String) :
    (removeFirstById l oid).Sublist l := by
  induction l with
  | nil => simp [removeFirstById]
  | cons o rest ih =>
    rw [removeFirstById]
    split
    · exact List.sublist_cons_self o rest
    · exact List.Sublist.cons₂ o ih

theorem removeFirstById_not_mem (l : List Order) (oid : String)
    (h : l.countP (fun o => o.id == oid) ≤ 1) :
    ∀ x ∈ removeFirstById l oid, x.id ≠ oid := by
  induction l with
  | nil => simp [removeFirstById]
  | cons o rest ih =>
    rw [List.countP_cons] at h
    rw [removeFirstById]
    split
    case isTrue hid =>
      intro x hx hxid
      have h0 : rest.countP (fun o => o.id == oid) = 0 := by
        rw [if_pos hid] at h
        omega
      have := List.countP_eq_zero.mp h0 x hx
      simp [hxid] at this
    case isFalse hid =>
      intro x hx
      rcases List.mem_cons.mp hx with hx2 | hx2
      · subst hx2
        simpa using hid
      · refine ih ?_ x hx2
        rw [if_neg hid] at h
        omega

theorem add_order_buy (b : OrderBook) (o : Order) (hs : o.side = Side.BUY)
    (inc : Order) (sells2 : List Order) (idx2 : List (String × Order))
    (trades : List Trade)
    (hm : matchBuyGo o [] b.sells b.orders_by_id [] = (inc, sells2, idx2, trades))
    (hs2 : inc.side = Side.BUY) :
    b.add_order o =
      if 0 < inc.remaining then
        ({ market_id := b.market_id
           buys := (b.buys ++ [inc]).mergeSort buyLE
           sells := sells2
           orders_by_id := dictInsert idx2 inc.id inc }, trades, some inc)
      else
        ({ market_id := b.market_id, buys := b.buys, sells := sells2,
           orders_by_id := idx2 }, trades, none) := by
  by_cases hrem : 0 < inc.remaining
  · rw [if_pos hrem]
    simp [OrderBook.add_order, hs, hm, addToBook, hs2, hrem]
  · rw [if_neg hrem]
    simp [OrderBook.add_order, hs, hm, addToBook, hrem]

theorem add_order_sell (b : OrderBook) (o : Order) (hs : o.side = Side.SELL)
    (inc : Order) (buys2 : List Order) (idx2 : List (String × Order))
    (trades : List Trade)
    (hm : matchSellGo o [] b.buys b.orders_by_id [] = (inc, buys2, idx2, trades))
    (hs2 : inc.side = Side.SELL) :
    b.add_order o =
      if 0 < inc.remaining then
        ({ market_id := b.market_id
           buys := buys2
           sells := (b.sells ++ [inc]).mergeSort sellLE
           orders_by_id := dictInsert idx2 inc.id inc }, trades, some inc)
      else
        ({ market_id := b.market_id, buys := buys2, sells := b.sells,
           orders_by_id := idx2 }, trades, none) := by
  by_cases hrem : 0 < inc.remaining
  · rw [if_pos hrem]
    simp [OrderBook.add_order, hs, hm, addToBook, hs2, hrem]
  · rw [if_neg hrem]
    simp [OrderBook.add_order, hs, hm, addToBook, hrem]

theorem cancel_order_none (b : OrderBook) (oid : String)
    (hg : dictGet b.orders_by_id oid = none) :
    b.cancel_order oid =
      (b, some (MatchingEngineError.orderNotFound
        ("Order " ++ oid ++ " not found in orderbook"))) := by
  simp [OrderBook.cancel_order, hg]

theorem cancel_order_some (b : OrderBook) (oid : String) (order : Order)
    (hg : dictGet b.orders_by_id oid = some order) :
    b.cancel_order oid =
      (if order.side = Side.BUY then
        { market_id := b.market_id, buys := removeFirstById b.buys order.id,
          sells := b.sells, orders_by_id := dictPop b.orders_by_id oid }
       else
        { market_id := b.market_id, buys := b.buys,
          sells := removeFirstById b.sells order.id,
          orders_by_id := dictPop b.orders_by_id oid }, none) := by
  by_cases hside : order.side = Side.BUY
  · simp [OrderBook.cancel_order, hg, hside]
  · simp [OrderBook.cancel_order, hg, hside]

theorem posBook_of_reachableQ (b : OrderBook) (h : ReachableQ b) : PosBook b := by
  induction h with
  | empty mid => exact ⟨by simp [emptyBook], by simp [emptyBook], by simp [emptyBook]⟩
  | add b o hb hq hr ih =>
    obtain ⟨ihb, ihs, ihi⟩ := ih
    have hm : matchBuyGo o [] b.sells b.orders_by_id [] =
        ((matchBuyGo o [] b.sells b.orders_by_id []).1,
         (matchBuyGo o [] b.sells b.orders_by_id []).2.1,
         (matchBuyGo o [] b.sells b.orders_by_id []).2.2.1,
         (matchBuyGo o [] b.sells b.orders_by_id []).2.2.2) := rfl
    have hms : matchSellGo o [] b.buys b.orders_by_id [] =
        ((matchSellGo o [] b.buys b.orders_by_id []).1,
         (matchSellGo o [] b.buys b.orders_by_id []).2.1,
         (matchSellGo o [] b.buys b.orders_by_id []).2.2.1,
         (matchSellGo o [] b.buys b.orders_by_id []).2.2.2) := rfl
    cases hside : o.side
    case BUY =>
      obtain ⟨out2, new, e1, e2, e3, e4, e5, e6⟩ :=
        matchBuyGo_shape b.sells o [] b.orders_by_id []
      have hside2 : (matchBuyGo o [] b.sells b.orders_by_id []).1.side = Side.BUY := by
        rw [e3]
        exact hside
      rw [add_order_buy b o hside _ _ _ _ hm hside2]
      split
      case isTrue hpos =>
        refine ⟨?_, ?_, ?_⟩
        · intro x hx
          rcases List.mem_append.mp (List.mem_mergeSort.mp hx) with hx2 | hx2
          · exact ihb x hx2
          · rw [List.mem_singleton.mp hx2]
            exact hpos
        · intro x hx
          rw [e1, List.nil_append] at hx
          obtain ⟨y, hy, hxy⟩ := e5.mem x hx
          rcases hxy with h2 | ⟨r, hrpos, h2⟩
          · rw [h2]
            exact ihs y hy
          · rw [h2]
            exact hrpos
        · intro e he
          rcases mem_dictInsert he with he2 | he2
          · exact (matchBuyGo_idx b.sells o [] b.orders_by_id []).1 ihi e he2
          · rw [he2]
            exact hpos
      case isFalse hpos =>
        refine ⟨ihb, ?_, ?_⟩
        · intro x hx
          rw [e1, List.nil_append] at hx
          obtain ⟨y, hy, hxy⟩ := e5.mem x hx
          rcases hxy with h2 | ⟨r, hrpos, h2⟩
          · rw [h2]
            exact ihs y hy
          · rw [h2]
            exact hrpos
        · exact (matchBuyGo_idx b.sells o [] b.orders_by_id []).1 ihi
    case SELL =>
      obtain ⟨out2, new, e1, e2, e3, e4, e5, e6⟩ :=
        matchSellGo_shape b.buys o [] b.orders_by_id []
      have hside2 : (matchSellGo o [] b.buys b.orders_by_id []).1.side = Side.SELL := by
        rw [e3]
        exact hside
      rw [add_order_sell b o hside _ _ _ _ hms hside2]
      split
      case isTrue hpos =>
        refine ⟨?_, ?_, ?_⟩
        · intro x hx
          rw [e1, List.nil_append] at hx
          obtain ⟨y, hy, hxy⟩ := e5.mem x hx
          rcases hxy with h2 | ⟨r, hrpos, h2⟩
          · rw [h2]
            exact ihb y hy
          · rw [h2]
            exact hrpos
        · intro x hx
          rcases List.mem_append.mp (List.mem_mergeSort.mp hx) with hx2 | hx2
          · exact ihs x hx2
          · rw [List.mem_singleton.mp hx2]
            exact hpos
        · intro e he
          rcases mem_dictInsert he with he2 | he2
          · exact (matchSellGo_idx b.buys o [] b.orders_by_id []).1 ihi e he2
          · rw [he2]
            exact hpos
      case isFalse hpos =>
        refine ⟨?_, ihs, ?_⟩
        · intro x hx
          rw [e1, List.nil_append] at hx
          obtain ⟨y, hy, hxy⟩ := e5.mem x hx
          rcases hxy with h2 | ⟨r, hrpos, h2⟩
          · rw [h2]
            exact ihb y hy
          · rw [h2]
            exact hrpos
        · exact (matchSellGo_idx b.buys o [] b.orders_by_id []).1 ihi
  | cancel b oid hb ih =>
    obtain ⟨ihb, ihs, ihi⟩ := ih
    cases hg : dictGet b.orders_by_id oid with
    | none =>
      rw [cancel_order_none b oid hg]
      exact ⟨ihb, ihs, ihi⟩
    | some order =>
      rw [cancel_order_some b oid order hg]
      split
      case isTrue hside =>
        refine ⟨?_, ihs, ?_⟩
        · intro x hx
          exact ihb x ((removeFirstById_sublist _ _).subset hx)
        · intro e he
          exact ihi e (mem_dictPop he)
      case isFalse hside =>
        refine ⟨ihb, ?_, ?_⟩
        · intro x hx
          exact ihs x ((removeFirstById_sublist _ _).subset hx)
        · intro e he
          exact ihi e (mem_dictPop he)

theorem pricedSorted_of_reachableL (b : OrderBook) (h : ReachableL b) :
    PricedSorted b := by
  induction h with
  | empty mid =>
    exact ⟨by simp [emptyBook], by simp [emptyBook], by simp [emptyBook],
      by simp [emptyBook]⟩
  | add b o p hb ht hp h0 h1 ih =>
    obtain ⟨ihbP, ihsP, ihbS, ihsS⟩ := ih
    have hm : matchBuyGo o [] b.sells b.orders_by_id [] =
        ((matchBuyGo o [] b.sells b.orders_by_id []).1,
         (matchBuyGo o [] b.sells b.orders_by_id []).2.1,
         (matchBuyGo o [] b.sells b.orders_by_id []).2.2.1,
         (matchBuyGo o [] b.sells b.orders_by_id []).2.2.2) := rfl
    have hms : matchSellGo o [] b.buys b.orders_by_id [] =
        ((matchSellGo o [] b.buys b.orders_by_id []).1,
         (matchSellGo o [] b.buys b.orders_by_id []).2.1,
         (matchSellGo o [] b.buys b.orders_by_id []).2.2.1,
         (matchSellGo o [] b.buys b.orders_by_id []).2.2.2) := rfl
    cases hside : o.side
    case BUY =>
      obtain ⟨out2, new, e1, e2, e3, e4, e5, e6⟩ :=
        matchBuyGo_shape b.sells o [] b.orders_by_id []
      have hside2 : (matchBuyGo o [] b.sells b.orders_by_id []).1.side = Side.BUY := by
        rw [e3]
        exact hside
      have hip : (matchBuyGo o [] b.sells b.orders_by_id []).1.price = o.price := by
        rw [e3]
      have hsellsP : ∀ x ∈ out2, ∃ q, x.price = some q ∧ 0 < q ∧ q < 1 := by
        intro x hx
        obtain ⟨y, hy, hxy⟩ := e5.mem x hx
        obtain ⟨q, hq, hq0, hq1⟩ := ihsP y hy
        rcases hxy with h2 | ⟨r, hrpos, h2⟩
        · rw [h2]
          exact ⟨q, hq, hq0, hq1⟩
        · rw [h2]
          exact ⟨q, hq, hq0, hq1⟩
      have hsellsS : List.Pairwise (fun a b => sellLE a b = true) out2 := by
        have := SuffixMod.pairwise sellLE_rem_left sellLE_rem_right e5 []
          (by simpa using ihsS)
        simpa using this
      rw [add_order_buy b o hside _ _ _ _ hm hside2]
      split
      case isTrue hpos =>
        refine ⟨?_, ?_, pairwise_mergeSort_buyLE _, ?_⟩
        · intro x hx
          rcases List.mem_append.mp (List.mem_mergeSort.mp hx) with hx2 | hx2
          · exact ihbP x hx2
          · rw [List.mem_singleton.mp hx2]
            exact ⟨p, by rw [hip]; exact hp, h0, h1⟩
        · intro x hx
          rw [e1, List.nil_append] at hx
          exact hsellsP x hx
        · rw [e1, List.nil_append]
          exact hsellsS
      case isFalse hpos =>
        refine ⟨ihbP, ?_, ihbS, ?_⟩
        · intro x hx
          rw [e1, List.nil_append] at hx
          exact hsellsP x hx
        · rw [e1, List.nil_append]
          exact hsellsS
    case SELL =>
      obtain ⟨out2, new, e1, e2, e3, e4, e5, e6⟩ :=
        matchSellGo_shape b.buys o [] b.orders_by_id []
      have hside2 : (matchSellGo o [] b.buys b.orders_by_id []).1.side = Side.SELL := by
        rw [e3]
        exact hside
      have hip : (matchSellGo o [] b.buys b.orders_by_id []).1.price = o.price := by
        rw [e3]
      have hbuysP : ∀ x ∈ out2, ∃ q, x.price = some q ∧ 0 < q ∧ q < 1 := by
        intro x hx
        obtain ⟨y, hy, hxy⟩ := e5.mem x hx
        obtain ⟨q, hq, hq0, hq1⟩ := ihbP y hy
        rcases hxy with h2 | ⟨r, hrpos, h2⟩
        · rw [h2]
          exact ⟨q, hq, hq0, hq1⟩
        · rw [h2]
          exact ⟨q, hq, hq0, hq1⟩
      have hbuysS : List.Pairwise (fun a b => buyLE a b = true) out2 := by
        have := SuffixMod.pairwise buyLE_rem_left buyLE_rem_right e5 []
          (by simpa using ihbS)
        simpa using this
      rw [add_order_sell b o hside _ _ _ _ hms hside2]
      split
      case isTrue hpos =>
        refine ⟨?_, ?_, ?_, pairwise_mergeSort_sellLE _⟩
        · intro x hx
          rw [e1, List.nil_append] at hx
          exact hbuysP x hx
        · intro x hx
          rcases List.mem_append.mp (List.mem_mergeSort.mp hx) with hx2 | hx2
          · exact ihsP x hx2
          · rw [List.mem_singleton.mp hx2]
            exact ⟨p, by rw [hip]; exact hp, h0, h1⟩
        · rw [e1, List.nil_append]
          exact hbuysS
      case isFalse hpos =>
        refine ⟨?_, ihsP, ?_, ihsS⟩
        · intro x hx
          rw [e1, List.nil_append] at hx
          exact hbuysP x hx
        · rw [e1, List.nil_append]
          exact hbuysS
  | cancel b oid hb ih =>
    obtain ⟨ihbP, ihsP, ihbS, ihsS⟩ := ih
    cases hg : dictGet b.orders_by_id oid with
    | none =>
      rw [cancel_order_none b oid hg]
      exact ⟨ihbP, ihsP, ihbS, ihsS⟩
    | some order =>
      rw [cancel_order_some b oid order hg]
      split
      case isTrue hside =>
        exact ⟨fun x hx => ihbP x ((removeFirstById_sublist _ _).subset hx), ihsP,
          List.Pairwise.sublist (removeFirstById_sublist _ _) ihbS, ihsS⟩
      case isFalse hside =>
        exact ⟨ihbP, fun x hx => ihsP x ((removeFirstById_sublist _ _).subset hx),
          ihbS, List.Pairwise.sublist (removeFirstById_sublist _ _) ihsS⟩

theorem matchBuyFuel_complete (todo : List Order) (fuel : Nat)
    (hf : todo.length < fuel) (incoming : Order) (done : List Order)
    (idx : List (String × Order)) (trades : List Trade) :
    matchBuyFuel fuel incoming done todo idx trades =
      some (matchBuyGo incoming done todo idx trades) := by
  induction todo generalizing fuel incoming done idx trades with
  | nil =>
    cases fuel with
    | zero => omega
    | succ f => rfl
  | cons best rest ih =>
    cases fuel with
    | zero => omega
    | succ f =>
      have hf2 : rest.length < f := by
        simp only [List.length_cons] at hf
        omega
      rw [matchBuyGo]
      simp only [matchBuyFuel]
      by_cases h0 : incoming.remaining ≤ 0
      · simp [h0]
      · by_cases hbr : buyBreaks incoming best = true
        · simp [h0, hbr]
        · rw [Bool.not_eq_true] at hbr
          by_cases hdel : best.remaining - min incoming.remaining best.remaining ≤ 0
          · simp only [if_neg h0, hbr, Bool.false_eq_true, if_false]
            rw [if_pos hdel, if_pos hdel]
            exact ih f hf2 _ _ _ _
          · simp only [if_neg h0, hbr, Bool.false_eq_true, if_false]
            rw [if_neg hdel, if_neg hdel]
            exact ih f hf2 _ _ _ _

theorem matchSellFuel_complete (todo : List Order) (fuel : Nat)
    (hf : todo.length < fuel) (incoming : Order) (done : List Order)
    (idx : List (String × Order)) (trades : List Trade) :
    matchSellFuel fuel incoming done todo idx trades =
      some (matchSellGo incoming done todo idx trades) := by
  induction todo generalizing fuel incoming done idx trades with
  | nil =>
    cases fuel with
    | zero => omega
    | succ f => rfl
  | cons best rest ih =>
    cases fuel with
    | zero => omega
    | succ f =>
      have hf2 : rest.length < f := by
        simp only [List.length_cons] at hf
        omega
      rw [matchSellGo]
      simp only [matchSellFuel]
      by_cases h0 : incoming.remaining ≤ 0
      · simp [h0]
      · by_cases hbr : sellBreaks incoming best = true
        · simp [h0, hbr]
        · rw [Bool.not_eq_true] at hbr
          by_cases hdel : best.remaining - min incoming.remaining best.remaining ≤ 0
          · simp only [if_neg h0, hbr, Bool.false_eq_true, if_false]
            rw [if_pos hdel, if_pos hdel]
            exact ih f hf2 _ _ _ _
          · simp only [if_neg h0, hbr, Bool.false_eq_true, if_false]
            rw [if_neg hdel, if_neg hdel]
            exact ih f hf2 _ _ _ _

/-- C10: the matching loops of `_match_buy` and `_match_sell` terminate on
every input: running the loop as a fuel-bounded step function with fuel one
more than the number of entries the scan index has left to visit (the
decreasing measure: each iteration either deletes the entry at the index or
advances the index) always completes, and computes the same result as the
total function. -/
theorem matching_loop_terminates (incoming : Order) (done todo : List Order)
    (idx : List (String × Order)) (trades : List Trade) :
    matchBuyFuel (todo.length + 1) incoming done todo idx trades =
      some (matchBuyGo incoming done todo idx trades) ∧
    matchSellFuel (todo.length + 1) incoming done todo idx trades =
      some (matchSellGo incoming done todo idx trades) :=
  ⟨matchBuyFuel_complete todo (todo.length + 1) (Nat.lt_succ_self _) incoming done idx trades,
   matchSellFuel_complete todo (todo.length + 1) (Nat.lt_succ_self _) incoming done idx trades⟩

/-- C3: in every OrderBook state reachable from the empty book by add_order
and cancel_order calls whose submitted orders all carry a price (LIMIT
orders with price in (0,1)), the buys list is sorted by price descending
with ties broken by ascending creation time and the sells list is sorted by
price ascending with ties broken by ascending creation time; in particular
add_order and cancel_order preserve this ordering. -/
theorem price_time_priority_spec (b : OrderBook) (h : ReachableL b) :
    List.Pairwise BuyPriority b.buys ∧ List.Pairwise SellPriority b.sells := by
  obtain ⟨hbP, hsP, hbS, hsS⟩ := pricedSorted_of_reachableL b h
  constructor
  · refine List.Pairwise.imp_of_mem ?_ hbS
    intro a c ha hc hle
    obtain ⟨pa, hpa, _, _⟩ := hbP a ha
    obtain ⟨pc, hpc, _, _⟩ := hbP c hc
    refine ⟨pa, pc, hpa, hpc, ?_⟩
    simp only [buyLE, Bool.or_eq_true, Bool.and_eq_true, decide_eq_true_eq] at hle
    have hda : priceD a = pa := by simp [priceD, hpa]
    have hdc : priceD c = pc := by simp [priceD, hpc]
    rcases hle with hlt | ⟨heq, htime⟩
    · rw [hda, hdc] at hlt
      exact Or.inl (by linarith)
    · rw [hda, hdc] at heq
      exact Or.inr ⟨by linarith, htime⟩
  · refine List.Pairwise.imp_of_mem ?_ hsS
    intro a c ha hc hle
    obtain ⟨pa, hpa, _, _⟩ := hsP a ha
    obtain ⟨pc, hpc, _, _⟩ := hsP c hc
    refine ⟨pa, pc, hpa, hpc, ?_⟩
    simp only [sellLE, Bool.or_eq_true, Bool.and_eq_true, decide_eq_true_eq] at hle
    have hda : priceD a = pa := by simp [priceD, hpa]
    have hdc : priceD c = pc := by simp [priceD, hpc]
    rcases hle with hlt | ⟨heq, htime⟩
    · rw [hda, hdc] at hlt
      exact Or.inl (by linarith)
    · rw [hda, hdc] at heq
      exact Or.inr ⟨by linarith, htime⟩

theorem price_time_priority_spec_witness :
    List.Pairwise BuyPriority
      (((emptyBook "m").add_order witBuy1).1.add_order witBuy2).1.buys ∧
    List.Pairwise SellPriority
      (((emptyBook "m").add_order witBuy1).1.add_order witBuy2).1.sells :=
  price_time_priority_spec _
    (ReachableL.add _ witBuy2 (3/5)
      (ReachableL.add _ witBuy1 (1/2) (ReachableL.empty "m") rfl rfl
        (by norm_num) (by norm_num))
      rfl rfl (by norm_num) (by norm_num))

/-- C5: in every OrderBook state reachable from the empty book by add_order
calls with positive quantity (and remaining initialised to the quantity) and
cancel_order calls, every order held in the buys list, the sells list or the
order-id index has remaining ≥ 0, and no held order has remaining = 0. -/
theorem no_negative_remainder_spec (b : OrderBook) (h : ReachableQ b) :
    (∀ o ∈ b.buys, 0 ≤ o.remaining ∧ o.remaining ≠ 0) ∧
    (∀ o ∈ b.sells, 0 ≤ o.remaining ∧ o.remaining ≠ 0) ∧
    (∀ e ∈ b.orders_by_id, 0 ≤ e.2.remaining ∧ e.2.remaining ≠ 0) := by
  obtain ⟨hb, hs, hi⟩ := posBook_of_reachableQ b h
  exact ⟨fun o ho => ⟨le_of_lt (hb o ho), ne_of_gt (hb o ho)⟩,
    fun o ho => ⟨le_of_lt (hs o ho), ne_of_gt (hs o ho)⟩,
    fun e he => ⟨le_of_lt (hi e he), ne_of_gt (hi e he)⟩⟩

theorem no_negative_remainder_spec_witness :
    (∀ o ∈ (((emptyBook "m").add_order witSell1).1.add_order witBuy3).1.buys,
      0 ≤ o.remaining ∧ o.remaining ≠ 0) ∧
    (∀ o ∈ (((emptyBook "m").add_order witSell1).1.add_order witBuy3).1.sells,
      0 ≤ o.remaining ∧ o.remaining ≠ 0) ∧
    (∀ e ∈ (((emptyBook "m").add_order witSell1).1.add_order witBuy3).1.orders_by_id,
      0 ≤ e.2.remaining ∧ e.2.remaining ≠ 0) :=
  no_negative_remainder_spec _
    (ReachableQ.add _ witBuy3
      (ReachableQ.add _ witSell1 (ReachableQ.empty "m") (by norm_num [witSell1]) rfl)
      (by norm_num [witBuy3]) rfl)

theorem buyBreaks_market (incoming best : Order)
    (ht : incoming.type = OrderType.MARKET) : buyBreaks incoming best = false := by
  simp [buyBreaks, ht]

theorem sellBreaks_market (incoming best : Order)
    (ht : incoming.type = OrderType.MARKET) : sellBreaks incoming best = false := by
  simp [sellBreaks, ht]

theorem add_order_proj_buy (b : OrderBook) (o : Order) (hside : o.side = Side.BUY) :
    (b.add_order o).2.1 = (matchBuyGo o [] b.sells b.orders_by_id []).2.2.2 := by
  obtain ⟨out2, new, e1, e2, e3, e4, e5, e6⟩ :=
    matchBuyGo_shape b.sells o [] b.orders_by_id []
  have hside2 : (matchBuyGo o [] b.sells b.orders_by_id []).1.side = Side.BUY := by
    rw [e3]
    exact hside
  rw [add_order_buy b o hside _ _ _ _ rfl hside2]
  split <;> rfl

theorem add_order_proj_sell (b : OrderBook) (o : Order) (hside : o.side = Side.SELL) :
    (b.add_order o).2.1 = (matchSellGo o [] b.buys b.orders_by_id []).2.2.2 := by
  obtain ⟨out2, new, e1, e2, e3, e4, e5, e6⟩ :=
    matchSellGo_shape b.buys o [] b.orders_by_id []
  have hside2 : (matchSellGo o [] b.buys b.orders_by_id []).1.side = Side.SELL := by
    rw [e3]
    exact hside
  rw [add_order_sell b o hside _ _ _ _ rfl hside2]
  split <;> rfl

theorem add_order_sells_buy (b : OrderBook) (o : Order) (hside : o.side = Side.BUY) :
    (b.add_order o).1.sells = (matchBuyGo o [] b.sells b.orders_by_id []).2.1 := by
  obtain ⟨out2, new, e1, e2, e3, e4, e5, e6⟩ :=
    matchBuyGo_shape b.sells o [] b.orders_by_id []
  have hside2 : (matchBuyGo o [] b.sells b.orders_by_id []).1.side = Side.BUY := by
    rw [e3]
    exact hside
  rw [add_order_buy b o hside _ _ _ _ rfl hside2]
  split <;> rfl

theorem add_order_buys_sell (b : OrderBook) (o : Order) (hside : o.side = Side.SELL) :
    (b.add_order o).1.buys = (matchSellGo o [] b.buys b.orders_by_id []).2.1 := by
  obtain ⟨out2, new, e1, e2, e3, e4, e5, e6⟩ :=
    matchSellGo_shape b.buys o [] b.orders_by_id []
  have hside2 : (matchSellGo o [] b.buys b.orders_by_id []).1.side = Side.SELL := by
    rw [e3]
    exact hside
  rw [add_order_sell b o hside _ _ _ _ rfl hside2]
  split <;> rfl

theorem matchBuyGo_maker (todo : List Order) (incoming : Order) (done : List Order)
    (idx : List (String × Order)) (acc : List Trade) :
    ∃ new,
      (matchBuyGo incoming done todo idx acc).2.2.2 = acc ++ new ∧
      new.length ≤ todo.length ∧
      (new = [] → (matchBuyGo incoming done todo idx acc).2.1 = done ++ todo) ∧
      (∀ k, ∀ (hk : k < new.length) (hk2 : k < todo.length),
        (k + 1 < new.length →
          (new.get ⟨k, hk⟩).quantity = (todo.get ⟨k, hk2⟩).remaining) ∧
        (k + 1 = new.length →
          (0 < (todo.get ⟨k, hk2⟩).remaining - (new.get ⟨k, hk⟩).quantity →
            (matchBuyGo incoming done todo idx acc).2.1 =
              done ++ ({ todo.get ⟨k, hk2⟩ with remaining :=
                (todo.get ⟨k, hk2⟩).remaining - (new.get ⟨k, hk⟩).quantity } ::
                todo.drop new.length)) ∧
          ((todo.get ⟨k, hk2⟩).remaining - (new.get ⟨k, hk⟩).quantity ≤ 0 →
            (new.get ⟨k, hk⟩).quantity = (todo.get ⟨k, hk2⟩).remaining ∧
            (matchBuyGo incoming done todo idx acc).2.1 =
              done ++ todo.drop new.length))) := by
  induction todo generalizing incoming done idx acc with
  | nil =>
    refine ⟨[], by simp [matchBuyGo_nil], by simp, ?_, ?_⟩
    · intro _
      rw [matchBuyGo_nil]
      simp
    · intro k hk hk2
      exact absurd hk (by simp)
  | cons best rest ih =>
    by_cases h0 : incoming.remaining ≤ 0
    · refine ⟨[], by simp [matchBuyGo_exit _ _ _ _ _ h0], by simp, ?_, ?_⟩
      · intro _
        rw [matchBuyGo_exit _ _ _ _ _ h0]
      · intro k hk hk2
        exact absurd hk (by simp)
    · push_neg at h0
      by_cases hbr : buyBreaks incoming best = true
      · refine ⟨[], by simp [matchBuyGo_cons_break _ _ _ _ _ _ hbr], by simp, ?_, ?_⟩
        · intro _
          rw [matchBuyGo_cons_break _ _ _ _ _ _ hbr]
        · intro k hk hk2
          exact absurd hk (by simp)
      · rw [Bool.not_eq_true] at hbr
        by_cases hdel : best.remaining - min incoming.remaining best.remaining ≤ 0
        · rw [matchBuyGo_cons_eat _ _ _ _ _ _ h0 hbr hdel]
          have hq : min incoming.remaining best.remaining = best.remaining :=
            min_eq_right_of_nonpos hdel
          obtain ⟨new2, g1, g2, g3, g4⟩ :=
            ih { incoming with remaining :=
                  incoming.remaining - min incoming.remaining best.remaining }
              done (dictPop idx best.id)
              (acc ++ [buyTradeOf incoming best (acc.length + 1)])
          refine ⟨buyTradeOf incoming best (acc.length + 1) :: new2, ?_, ?_, by simp, ?_⟩
          · rw [g1]
            simp
          · simpa using Nat.succ_le_succ g2
          · intro k hk hk2
            cases k with
            | zero =>
              constructor
              · intro _
                simp [buyTradeOf, hq]
              · intro hlast
                have hnew2 : new2 = [] := by
                  simp only [List.length_cons] at hlast
                  exact List.length_eq_zero.mp (by omega)
                constructor
                · intro hpos
                  exfalso
                  have hpos2 : 0 < best.remaining -
                      min incoming.remaining best.remaining := hpos
                  rw [hq] at hpos2
                  simp at hpos2
                · intro _
                  refine ⟨by simp [buyTradeOf, hq], ?_⟩
                  have hg3 := g3 hnew2
                  rw [hnew2]
                  simpa using hg3
            | succ k =>
              have hka : k < new2.length := by simpa using hk
              have hkb : k < rest.length := by simpa using hk2
              have hg4 := g4 k hka hkb
              constructor
              · intro hlt
                have hlt2 : k + 1 < new2.length := by simpa using hlt
                simpa using hg4.1 hlt2
              · intro hlast
                have hlast2 : k + 1 = new2.length := by
                  simp only [List.length_cons] at hlast
                  omega
                have hg42 := hg4.2 hlast2
                constructor
                · intro hpos
                  have hpos2 : 0 < (rest.get ⟨k, hkb⟩).remaining -
                      (new2.get ⟨k, hka⟩).quantity := by
                    simpa using hpos
                  have hl := hg42.1 hpos2
                  simpa [List.drop_succ_cons] using hl
                · intro hnp
                  have hnp2 : (rest.get ⟨k, hkb⟩).remaining -
                      (new2.get ⟨k, hka⟩).quantity ≤ 0 := by
                    simpa using hnp
                  obtain ⟨hqe, hl⟩ := hg42.2 hnp2
                  refine ⟨by simpa using hqe, ?_⟩
                  simpa [List.drop_succ_cons] using hl
        · push_neg at hdel
          rw [matchBuyGo_cons_keep _ _ _ _ _ _ h0 hbr hdel]
          refine ⟨[buyTradeOf incoming best (acc.length + 1)], rfl, by simp, by simp, ?_⟩
          intro k hk hk2
          cases k with
          | zero =>
            constructor
            · intro hcon
              simp at hcon
            · intro _
              constructor
              · intro _
                simp [buyTradeOf]
              · intro hnp
                exfalso
                have hnp2 : best.remaining -
                    min incoming.remaining best.remaining ≤ 0 := hnp
                linarith
          | succ k =>
            exact absurd hk (by simp)

theorem matchSellGo_maker (todo : List Order) (incoming : Order) (done : List Order)
    (idx : List (String × Order)) (acc : List Trade) :
    ∃ new,
      (matchSellGo incoming done todo idx acc).2.2.2 = acc ++ new ∧
      new.length ≤ todo.length ∧
      (new = [] → (matchSellGo incoming done todo idx acc).2.1 = done ++ todo) ∧
      (∀ k, ∀ (hk : k < new.length) (hk2 : k < todo.length),
        (k + 1 < new.length →
          (new.get ⟨k, hk⟩).quantity = (todo.get ⟨k, hk2⟩).remaining) ∧
        (k + 1 = new.length →
          (0 < (todo.get ⟨k, hk2⟩).remaining - (new.get ⟨k, hk⟩).quantity →
            (matchSellGo incoming done todo idx acc).2.1 =
              done ++ ({ todo.get ⟨k, hk2⟩ with remaining :=
                (todo.get ⟨k, hk2⟩).remaining - (new.get ⟨k, hk⟩).quantity } ::
                todo.drop new.length)) ∧
          ((todo.get ⟨k, hk2⟩).remaining - (new.get ⟨k, hk⟩).quantity ≤ 0 →
            (new.get ⟨k, hk⟩).quantity = (todo.get ⟨k, hk2⟩).remaining ∧
            (matchSellGo incoming done todo idx acc).2.1 =
              done ++ todo.drop new.length))) := by
  induction todo generalizing incoming done idx acc with
  | nil =>
    refine ⟨[], by simp [matchSellGo_nil], by simp, ?_, ?_⟩
    · intro _
      rw [matchSellGo_nil]
      simp
    · intro k hk hk2
      exact absurd hk (by simp)
  | cons best rest ih =>
    by_cases h0 : incoming.remaining ≤ 0
    · refine ⟨[], by simp [matchSellGo_exit _ _ _ _ _ h0], by simp, ?_, ?_⟩
      · intro _
        rw [matchSellGo_exit _ _ _ _ _ h0]
      · intro k hk hk2
        exact absurd hk (by simp)
    · push_neg at h0
      by_cases hbr : sellBreaks incoming best = true
      · refine ⟨[], by simp [matchSellGo_cons_break _ _ _ _ _ _ hbr], by simp, ?_, ?_⟩
        · intro _
          rw [matchSellGo_cons_break _ _ _ _ _ _ hbr]
        · intro k hk hk2
          exact absurd hk (by simp)
      · rw [Bool.not_eq_true] at hbr
        by_cases hdel : best.remaining - min incoming.remaining best.remaining ≤ 0
        · rw [matchSellGo_cons_eat _ _ _ _ _ _ h0 hbr hdel]
          have hq : min incoming.remaining best.remaining = best.remaining :=
            min_eq_right_of_nonpos hdel
          obtain ⟨new2, g1, g2, g3, g4⟩ :=
            ih { incoming with remaining :=
                  incoming.remaining - min incoming.remaining best.remaining }
              done (dictPop idx best.id)
              (acc ++ [sellTradeOf incoming best (acc.length + 1)])
          refine ⟨sellTradeOf incoming best (acc.length + 1) :: new2, ?_, ?_, by simp, ?_⟩
          · rw [g1]
            simp
          · simpa using Nat.succ_le_succ g2
          · intro k hk hk2
            cases k with
            | zero =>
              constructor
              · intro _
                simp [sellTradeOf, hq]
              · intro hlast
                have hnew2 : new2 = [] := by
                  simp only [List.length_cons] at hlast
                  exact List.length_eq_zero.mp (by omega)
                constructor
                · intro hpos
                  exfalso
                  have hpos2 : 0 < best.remaining -
                      min incoming.remaining best.remaining := hpos
                  rw [hq] at hpos2
                  simp at hpos2
                · intro _
                  refine ⟨by simp [sellTradeOf, hq], ?_⟩
                  have hg3 := g3 hnew2
                  rw [hnew2]
                  simpa using hg3
            | succ k =>
              have hka : k < new2.length := by simpa using hk
              have hkb : k < rest.length := by simpa using hk2
              have hg4 := g4 k hka hkb
              constructor
              · intro hlt
                have hlt2 : k + 1 < new2.length := by simpa using hlt
                simpa using hg4.1 hlt2
              · intro hlast
                have hlast2 : k + 1 = new2.length := by
                  simp only [List.length_cons] at hlast
                  omega
                have hg42 := hg4.2 hlast2
                constructor
                · intro hpos
                  have hpos2 : 0 < (rest.get ⟨k, hkb⟩).remaining -
                      (new2.get ⟨k, hka⟩).quantity := by
                    simpa using hpos
                  have hl := hg42.1 hpos2
                  simpa [List.drop_succ_cons] using hl
                · intro hnp
                  have hnp2 : (rest.get ⟨k, hkb⟩).remaining -
                      (new2.get ⟨k, hka⟩).quantity ≤ 0 := by
                    simpa using hnp
                  obtain ⟨hqe, hl⟩ := hg42.2 hnp2
                  refine ⟨by simpa using hqe, ?_⟩
                  simpa [List.drop_succ_cons] using hl
        · push_neg at hdel
          rw [matchSellGo_cons_keep _ _ _ _ _ _ h0 hbr hdel]
          refine ⟨[sellTradeOf incoming best (acc.length + 1)], rfl, by simp, by simp, ?_⟩
          intro k hk hk2
          cases k with
          | zero =>
            constructor
            · intro hcon
              simp at hcon
            · intro _
              constructor
              · intro _
                simp [sellTradeOf]
              · intro hnp
                exfalso
                have hnp2 : best.remaining -
                    min incoming.remaining best.remaining ≤ 0 := hnp
                linarith
          | succ k =>
            exact absurd hk (by simp)

theorem cancel_err_iff (b : OrderBook) (oid : String) :
    (b.cancel_order oid).2.isSome ↔ dictGet b.orders_by_id oid = none := by
  cases hg : dictGet b.orders_by_id oid with
  | none =>
    rw [cancel_order_none b oid hg]
    simp
  | some order =>
    rw [cancel_order_some b oid order hg]
    simp

theorem dictGet_some_mem {α : Type} {d : List (String × α)} {k : String} {v : α}
    (h : dictGet d k = some v) : (k, v) ∈ d := by
  unfold dictGet at h
  cases hf : d.find? (fun e => e.1 == k) with
  | none =>
    rw [hf] at h
    cases h
  | some e =>
    rw [hf] at h
    have hm := List.mem_of_find?_eq_some hf
    have hp := List.find?_some hf
    have hk : e.1 = k := by simpa using hp
    have hv : e.2 = v := by simpa using h
    have : e = (k, v) := Prod.ext hk hv
    rw [← this]
    exact hm

/-- C1: every trade emitted by `OrderBook.add_order` is matched against the
k-th entry of the opposing side as it stood before the call; when that
resting (maker) order is a LIMIT order whose price is present and in (0,1),
the trade's price equals that maker price, and the trade's quantity equals
the minimum of the incoming remaining as it stood at the instant of that
match (the original remaining less the quantities of the earlier trades of
the same call) and the resting order's remaining at that instant (its value
in the pre-call book, since each resting order is matched at most once per
call). -/
theorem trade_price_and_quantity_spec (b : OrderBook) (o : Order)
    (b2 : OrderBook) (trades : List Trade) (res : Option Order)
    (h : b.add_order o = (b2, trades, res)) :
    (o.side = Side.BUY → ∀ k, ∀ (hk : k < trades.length),
      ∃ hk2 : k < b.sells.length,
        (trades.get ⟨k, hk⟩).buy_order_id = o.id ∧
        (trades.get ⟨k, hk⟩).sell_order_id = (b.sells.get ⟨k, hk2⟩).id ∧
        (trades.get ⟨k, hk⟩).quantity =
          min (o.remaining - sumQty (trades.take k))
            (b.sells.get ⟨k, hk2⟩).remaining ∧
        (∀ p, (b.sells.get ⟨k, hk2⟩).price = some p → 0 < p → p < 1 →
          (trades.get ⟨k, hk⟩).price = some p)) ∧
    (o.side = Side.SELL → ∀ k, ∀ (hk : k < trades.length),
      ∃ hk2 : k < b.buys.length,
        (trades.get ⟨k, hk⟩).sell_order_id = o.id ∧
        (trades.get ⟨k, hk⟩).buy_order_id = (b.buys.get ⟨k, hk2⟩).id ∧
        (trades.get ⟨k, hk⟩).quantity =
          min (o.remaining - sumQty (trades.take k))
            (b.buys.get ⟨k, hk2⟩).remaining ∧
        (∀ p, (b.buys.get ⟨k, hk2⟩).price = some p → 0 < p → p < 1 →
          (trades.get ⟨k, hk⟩).price = some p)) := by
  constructor
  · intro hside k hk
    have htr : trades = (matchBuyGo o [] b.sells b.orders_by_id []).2.2.2 := by
      rw [← add_order_proj_buy b o hside, h]
    obtain ⟨new, f1, f2, f3, f4⟩ := matchBuyGo_trades b.sells o [] b.orders_by_id []
    rw [List.nil_append] at f1
    rw [f1] at htr
    subst htr
    have hk2 : k < b.sells.length := lt_of_lt_of_le hk f2
    obtain ⟨p1, p2, p3, p4, p5⟩ := f3 k hk hk2
    refine ⟨hk2, p1, p2, p4, ?_⟩
    intro p hp hp0 hp1
    rw [p3, hp]
    simp [pyOr, ne_of_gt hp0]
  · intro hside k hk
    have htr : trades = (matchSellGo o [] b.buys b.orders_by_id []).2.2.2 := by
      rw [← add_order_proj_sell b o hside, h]
    obtain ⟨new, f1, f2, f3, f4⟩ := matchSellGo_trades b.buys o [] b.orders_by_id []
    rw [List.nil_append] at f1
    rw [f1] at htr
    subst htr
    have hk2 : k < b.buys.length := lt_of_lt_of_le hk f2
    obtain ⟨p1, p2, p3, p4, p5⟩ := f3 k hk hk2
    refine ⟨hk2, p1, p2, p4, ?_⟩
    intro p hp hp0 hp1
    rw [p3, hp]
    simp [pyOr, ne_of_gt hp0]

theorem trade_price_and_quantity_spec_witness :
    (witBuy3.side = Side.BUY → ∀ k,
      ∀ (hk : k < (witBookS.add_order witBuy3).2.1.length),
      ∃ hk2 : k < witBookS.sells.length,
        ((witBookS.add_order witBuy3).2.1.get ⟨k, hk⟩).buy_order_id = witBuy3.id ∧
        ((witBookS.add_order witBuy3).2.1.get ⟨k, hk⟩).sell_order_id =
          (witBookS.sells.get ⟨k, hk2⟩).id ∧
        ((witBookS.add_order witBuy3).2.1.get ⟨k, hk⟩).quantity =
          min (witBuy3.remaining - sumQty ((witBookS.add_order witBuy3).2.1.take k))
            (witBookS.sells.get ⟨k, hk2⟩).remaining ∧
        (∀ p, (witBookS.sells.get ⟨k, hk2⟩).price = some p → 0 < p → p < 1 →
          ((witBookS.add_order witBuy3).2.1.get ⟨k, hk⟩).price = some p)) ∧
    (witBuy3.side = Side.SELL → ∀ k,
      ∀ (hk : k < (witBookS.add_order witBuy3).2.1.length),
      ∃ hk2 : k < witBookS.buys.length,
        ((witBookS.add_order witBuy3).2.1.get ⟨k, hk⟩).sell_order_id = witBuy3.id ∧
        ((witBookS.add_order witBuy3).2.1.get ⟨k, hk⟩).buy_order_id =
          (witBookS.buys.get ⟨k, hk2⟩).id ∧
        ((witBookS.add_order witBuy3).2.1.get ⟨k, hk⟩).quantity =
          min (witBuy3.remaining - sumQty ((witBookS.add_order witBuy3).2.1.take k))
            (witBookS.buys.get ⟨k, hk2⟩).remaining ∧
        (∀ p, (witBookS.buys.get ⟨k, hk2⟩).price = some p → 0 < p → p < 1 →
          ((witBookS.add_order witBuy3).2.1.get ⟨k, hk⟩).price = some p)) :=
  trade_price_and_quantity_spec witBookS witBuy3
    (witBookS.add_order witBuy3).1 (witBookS.add_order witBuy3).2.1
    (witBookS.add_order witBuy3).2.2 rfl

theorem buyBreaks_limit (incoming best : Order) (ip rp : ℚ)
    (ht : incoming.type = OrderType.LIMIT) (hip : incoming.price = some ip)
    (hrp : best.price = some rp) : buyBreaks incoming best = decide (ip < rp) := by
  simp [buyBreaks, ht, hip, hrp]

theorem sellBreaks_limit (incoming best : Order) (ip rp : ℚ)
    (ht : incoming.type = OrderType.LIMIT) (hip : incoming.price = some ip)
    (hrp : best.price = some rp) : sellBreaks incoming best = decide (rp < ip) := by
  simp [sellBreaks, ht, hip, hrp]

/-- C2: in `OrderBook.add_order`, an incoming MARKET order with positive
remaining always trades against the front resting order of the opposing
side; an incoming LIMIT order with a present price trades against a priced
resting order only when its price is at least as aggressive (BUY: incoming
price ≥ resting ask price; SELL: incoming price ≤ resting bid price); and as
soon as a priced resting entry fails to cross, no trade at or beyond its
position is emitted in that call. -/
theorem crossing_spec (b : OrderBook) (o : Order) (b2 : OrderBook)
    (trades : List Trade) (res : Option Order)
    (h : b.add_order o = (b2, trades, res)) :
    (o.side = Side.BUY →
      (o.type = OrderType.MARKET → 0 < o.remaining → b.sells ≠ [] →
        ∃ (h1 : 0 < trades.length) (h2 : 0 < b.sells.length),
          (trades.get ⟨0, h1⟩).sell_order_id = (b.sells.get ⟨0, h2⟩).id) ∧
      (∀ ip, o.type = OrderType.LIMIT → o.price = some ip →
        ∀ k, ∀ (hk : k < trades.length), ∃ hk2 : k < b.sells.length,
          ∀ rp, (b.sells.get ⟨k, hk2⟩).price = some rp → rp ≤ ip) ∧
      (∀ ip j, ∀ (hj : j < b.sells.length), o.type = OrderType.LIMIT →
        o.price = some ip → ∀ rp, (b.sells.get ⟨j, hj⟩).price = some rp →
        ip < rp → trades.length ≤ j)) ∧
    (o.side = Side.SELL →
      (o.type = OrderType.MARKET → 0 < o.remaining → b.buys ≠ [] →
        ∃ (h1 : 0 < trades.length) (h2 : 0 < b.buys.length),
          (trades.get ⟨0, h1⟩).buy_order_id = (b.buys.get ⟨0, h2⟩).id) ∧
      (∀ ip, o.type = OrderType.LIMIT → o.price = some ip →
        ∀ k, ∀ (hk : k < trades.length), ∃ hk2 : k < b.buys.length,
          ∀ rp, (b.buys.get ⟨k, hk2⟩).price = some rp → ip ≤ rp) ∧
      (∀ ip j, ∀ (hj : j < b.buys.length), o.type = OrderType.LIMIT →
        o.price = some ip → ∀ rp, (b.buys.get ⟨j, hj⟩).price = some rp →
        rp < ip → trades.length ≤ j)) := by
  constructor
  · intro hside
    have htr : trades = (matchBuyGo o [] b.sells b.orders_by_id []).2.2.2 := by
      rw [← add_order_proj_buy b o hside, h]
    obtain ⟨new, f1, f2, f3, f4⟩ := matchBuyGo_trades b.sells o [] b.orders_by_id []
    rw [List.nil_append] at f1
    rw [f1] at htr
    subst htr
    refine ⟨?_, ?_, ?_⟩
    · intro ht h0 hne
      have hnew : trades ≠ [] := by
        intro hcon
        rcases f4 hcon with hr0 | hr0 | ⟨best, rest, hr0, hr1⟩
        · linarith
        · exact hne hr0
        · rw [buyBreaks_market _ _ ht] at hr1
          cases hr1
      have h1 : 0 < trades.length := List.length_pos.mpr hnew
      have h2 : 0 < b.sells.length := lt_of_lt_of_le h1 f2
      obtain ⟨p1, p2, p3, p4, p5⟩ := f3 0 h1 h2
      exact ⟨h1, h2, p2⟩
    · intro ip ht hip k hk
      have hk2 : k < b.sells.length := lt_of_lt_of_le hk f2
      obtain ⟨p1, p2, p3, p4, p5⟩ := f3 k hk hk2
      refine ⟨hk2, ?_⟩
      intro rp hrp
      rw [buyBreaks_limit o _ ip rp ht hip hrp] at p5
      simpa using p5
    · intro ip j hj ht hip rp hrp hlt
      by_contra hcon
      push_neg at hcon
      obtain ⟨p1, p2, p3, p4, p5⟩ := f3 j hcon hj
      rw [buyBreaks_limit o _ ip rp ht hip hrp] at p5
      simp at p5
      linarith
  · intro hside
    have htr : trades = (matchSellGo o [] b.buys b.orders_by_id []).2.2.2 := by
      rw [← add_order_proj_sell b o hside, h]
    obtain ⟨new, f1, f2, f3, f4⟩ := matchSellGo_trades b.buys o [] b.orders_by_id []
    rw [List.nil_append] at f1
    rw [f1] at htr
    subst htr
    refine ⟨?_, ?_, ?_⟩
    · intro ht h0 hne
      have hnew : trades ≠ [] := by
        intro hcon
        rcases f4 hcon with hr0 | hr0 | ⟨best, rest, hr0, hr1⟩
        · linarith
        · exact hne hr0
        · rw [sellBreaks_market _ _ ht] at hr1
          cases hr1
      have h1 : 0 < trades.length := List.length_pos.mpr hnew
      have h2 : 0 < b.buys.length := lt_of_lt_of_le h1 f2
      obtain ⟨p1, p2, p3, p4, p5⟩ := f3 0 h1 h2
      exact ⟨h1, h2, p2⟩
    · intro ip ht hip k hk
      have hk2 : k < b.buys.length := lt_of_lt_of_le hk f2
      obtain ⟨p1, p2, p3, p4, p5⟩ := f3 k hk hk2
      refine ⟨hk2, ?_⟩
      intro rp hrp
      rw [sellBreaks_limit o _ ip rp ht hip hrp] at p5
      simpa using p5
    · intro ip j hj ht hip rp hrp hlt
      by_contra hcon
      push_neg at hcon
      obtain ⟨p1, p2, p3, p4, p5⟩ := f3 j hcon hj
      rw [sellBreaks_limit o _ ip rp ht hip hrp] at p5
      simp at p5
      linarith

theorem crossing_spec_witness :
    (witMkt.side = Side.BUY →
      (witMkt.type = OrderType.MARKET → 0 < witMkt.remaining →
        witBookS.sells ≠ [] →
        ∃ (h1 : 0 < (witBookS.add_order witMkt).2.1.length)
          (h2 : 0 < witBookS.sells.length),
          ((witBookS.add_order witMkt).2.1.get ⟨0, h1⟩).sell_order_id =
            (witBookS.sells.get ⟨0, h2⟩).id) ∧
      (∀ ip, witMkt.type = OrderType.LIMIT → witMkt.price = some ip →
        ∀ k, ∀ (hk : k < (witBookS.add_order witMkt).2.1.length),
          ∃ hk2 : k < witBookS.sells.length,
          ∀ rp, (witBookS.sells.get ⟨k, hk2⟩).price = some rp → rp ≤ ip) ∧
      (∀ ip j, ∀ (hj : j < witBookS.sells.length),
        witMkt.type = OrderType.LIMIT → witMkt.price = some ip →
        ∀ rp, (witBookS.sells.get ⟨j, hj⟩).price = some rp → ip < rp →
        (witBookS.add_order witMkt).2.1.length ≤ j)) ∧
    (witMkt.side = Side.SELL →
      (witMkt.type = OrderType.MARKET → 0 < witMkt.remaining →
        witBookS.buys ≠ [] →
        ∃ (h1 : 0 < (witBookS.add_order witMkt).2.1.length)
          (h2 : 0 < witBookS.buys.length),
          ((witBookS.add_order witMkt).2.1.get ⟨0, h1⟩).buy_order_id =
            (witBookS.buys.get ⟨0, h2⟩).id) ∧
      (∀ ip, witMkt.type = OrderType.LIMIT → witMkt.price = some ip →
        ∀ k, ∀ (hk : k < (witBookS.add_order witMkt).2.1.length),
          ∃ hk2 : k < witBookS.buys.length,
          ∀ rp, (witBookS.buys.get ⟨k, hk2⟩).price = some rp → ip ≤ rp) ∧
      (∀ ip j, ∀ (hj : j < witBookS.buys.length),
        witMkt.type = OrderType.LIMIT → witMkt.price = some ip →
        ∀ rp, (witBookS.buys.get ⟨j, hj⟩).price = some rp → rp < ip →
        (witBookS.add_order witMkt).2.1.length ≤ j)) :=
  crossing_spec witBookS witMkt
    (witBookS.add_order witMkt).1 (witBookS.add_order witMkt).2.1
    (witBookS.add_order witMkt).2.2 rfl

/-- C4: for an `add_order` call whose incoming order has positive quantity
(and remaining initialised to it): the total matched quantity never exceeds
the incoming order's original quantity; the incoming participant's remaining
decreases by exactly the quantity of each trade in turn (entering trade k it
is the original remaining less the earlier trades' quantities — the value the
trade's min is computed from — and the residual carries quantity minus the
total); and each emitted trade decreases its resting (maker) participant's
remaining by exactly that trade's quantity: every maker before the last
trade is consumed in full — its trade's quantity equals its whole pre-call
remaining and it is removed — and the last trade's maker keeps exactly its
pre-call remaining minus that trade's quantity, staying at the front of the
opposing side iff that is positive and being removed otherwise; the opposing
side's total resting quantity therefore drops by exactly the matched
total. -/
theorem quantity_conservation_spec (b : OrderBook) (o : Order) (b2 : OrderBook)
    (trades : List Trade) (res : Option Order)
    (hq : 0 < o.quantity) (hr : o.remaining = o.quantity)
    (h : b.add_order o = (b2, trades, res)) :
    sumQty trades ≤ o.quantity ∧
    (∀ r, res = some r → r.remaining = o.quantity - sumQty trades) ∧
    (res = none → sumQty trades = o.quantity) ∧
    (o.side = Side.BUY →
      sumRem b.sells = sumRem b2.sells + sumQty trades ∧
      (trades = [] → b2.sells = b.sells) ∧
      (∀ k, ∀ (hk : k < trades.length), ∃ hk2 : k < b.sells.length,
        (trades.get ⟨k, hk⟩).quantity =
          min (o.remaining - sumQty (trades.take k))
            (b.sells.get ⟨k, hk2⟩).remaining ∧
        (k + 1 < trades.length →
          (trades.get ⟨k, hk⟩).quantity = (b.sells.get ⟨k, hk2⟩).remaining) ∧
        (k + 1 = trades.length →
          (0 < (b.sells.get ⟨k, hk2⟩).remaining - (trades.get ⟨k, hk⟩).quantity →
            b2.sells =
              { b.sells.get ⟨k, hk2⟩ with remaining :=
                  (b.sells.get ⟨k, hk2⟩).remaining -
                    (trades.get ⟨k, hk⟩).quantity } ::
                b.sells.drop trades.length) ∧
          ((b.sells.get ⟨k, hk2⟩).remaining - (trades.get ⟨k, hk⟩).quantity ≤ 0 →
            (trades.get ⟨k, hk⟩).quantity = (b.sells.get ⟨k, hk2⟩).remaining ∧
            b2.sells = b.sells.drop trades.length)))) ∧
    (o.side = Side.SELL →
      sumRem b.buys = sumRem b2.buys + sumQty trades ∧
      (trades = [] → b2.buys = b.buys) ∧
      (∀ k, ∀ (hk : k < trades.length), ∃ hk2 : k < b.buys.length,
        (trades.get ⟨k, hk⟩).quantity =
          min (o.remaining - sumQty (trades.take k))
            (b.buys.get ⟨k, hk2⟩).remaining ∧
        (k + 1 < trades.length →
          (trades.get ⟨k, hk⟩).quantity = (b.buys.get ⟨k, hk2⟩).remaining) ∧
        (k + 1 = trades.length →
          (0 < (b.buys.get ⟨k, hk2⟩).remaining - (trades.get ⟨k, hk⟩).quantity →
            b2.buys =
              { b.buys.get ⟨k, hk2⟩ with remaining :=
                  (b.buys.get ⟨k, hk2⟩).remaining -
                    (trades.get ⟨k, hk⟩).quantity } ::
                b.buys.drop trades.length) ∧
          ((b.buys.get ⟨k, hk2⟩).remaining - (trades.get ⟨k, hk⟩).quantity ≤ 0 →
            (trades.get ⟨k, hk⟩).quantity = (b.buys.get ⟨k, hk2⟩).remaining ∧
            b2.buys = b.buys.drop trades.length)))) := by
  have hrem0 : (0 : ℚ) ≤ o.remaining := by
    rw [hr]
    exact le_of_lt hq
  have hb2e : (b.add_order o).1 = b2 := by rw [h]
  have htre : (b.add_order o).2.1 = trades := by rw [h]
  cases hside : o.side
  case BUY =>
    obtain ⟨out2, newS, e1, e2, e3, e4, e5, e6⟩ :=
      matchBuyGo_shape b.sells o [] b.orders_by_id []
    rw [List.nil_append] at e1 e2
    have hside2 : (matchBuyGo o [] b.sells b.orders_by_id []).1.side = Side.BUY := by
      rw [e3]
      exact hside
    have hrem : (matchBuyGo o [] b.sells b.orders_by_id []).1.remaining =
        o.remaining - sumQty newS := by
      rw [e3]
    have htS : trades = newS := by
      rw [← htre, add_order_proj_buy b o hside]
      exact e2
    subst htS
    have hnn := e6 hrem0
    have hsells : b2.sells = (matchBuyGo o [] b.sells b.orders_by_id []).2.1 := by
      rw [← hb2e, add_order_sells_buy b o hside]
    obtain ⟨newT, f1, f2, f3, f4⟩ := matchBuyGo_trades b.sells o [] b.orders_by_id []
    rw [List.nil_append] at f1
    have htT : trades = newT := by
      rw [← htre, add_order_proj_buy b o hside]
      exact f1
    subst htT
    obtain ⟨newM, g1, g2, g3, g4⟩ := matchBuyGo_maker b.sells o [] b.orders_by_id []
    rw [List.nil_append] at g1
    have htM : trades = newM := by
      rw [← htre, add_order_proj_buy b o hside]
      exact g1
    subst htM
    refine ⟨?_, ?_, ?_, ?_, ?_⟩
    · rw [hr] at hnn
      linarith
    · intro r hrs
      have hchar := add_order_buy b o hside _ _ _ _ rfl hside2
      rw [h] at hchar
      split at hchar
      case isTrue hpos =>
        rw [Prod.mk.injEq, Prod.mk.injEq] at hchar
        obtain ⟨hb2, htr, hres⟩ := hchar
        rw [hres, Option.some.injEq] at hrs
        rw [← hrs, hrem, hr]
      case isFalse hpos =>
        rw [Prod.mk.injEq, Prod.mk.injEq] at hchar
        obtain ⟨hb2, htr, hres⟩ := hchar
        rw [hres] at hrs
        cases hrs
    · intro hrn
      have hchar := add_order_buy b o hside _ _ _ _ rfl hside2
      rw [h] at hchar
      split at hchar
      case isTrue hpos =>
        rw [Prod.mk.injEq, Prod.mk.injEq] at hchar
        obtain ⟨hb2, htr, hres⟩ := hchar
        rw [hres] at hrn
        cases hrn
      case isFalse hpos =>
        rw [hrem] at hpos
        have hle : o.remaining - sumQty trades ≤ 0 := not_lt.mp hpos
        rw [hr] at hnn hle
        linarith
    · intro _
      refine ⟨?_, ?_, ?_⟩
      · rw [hsells, e1]
        exact e4
      · intro h0
        rw [hsells]
        simpa using g3 h0
      · intro k hk
        have hk2 : k < b.sells.length := lt_of_lt_of_le hk f2
        obtain ⟨p1, p2, p3, p4, p5⟩ := f3 k hk hk2
        have hg := g4 k hk hk2
        refine ⟨hk2, p4, hg.1, ?_⟩
        intro hlast
        have hg2 := hg.2 hlast
        refine ⟨?_, ?_⟩
        · intro hpos
          rw [hsells]
          simpa using hg2.1 hpos
        · intro hnp
          obtain ⟨hqe, hl⟩ := hg2.2 hnp
          refine ⟨hqe, ?_⟩
          rw [hsells]
          simpa using hl
    · intro hcon
      simp at hcon
  case SELL =>
    obtain ⟨out2, newS, e1, e2, e3, e4, e5, e6⟩ :=
      matchSellGo_shape b.buys o [] b.orders_by_id []
    rw [List.nil_append] at e1 e2
    have hside2 : (matchSellGo o [] b.buys b.orders_by_id []).1.side = Side.SELL := by
      rw [e3]
      exact hside
    have hrem : (matchSellGo o [] b.buys b.orders_by_id []).1.remaining =
        o.remaining - sumQty newS := by
      rw [e3]
    have htS : trades = newS := by
      rw [← htre, add_order_proj_sell b o hside]
      exact e2
    subst htS
    have hnn := e6 hrem0
    have hbuys : b2.buys = (matchSellGo o [] b.buys b.orders_by_id []).2.1 := by
      rw [← hb2e, add_order_buys_sell b o hside]
    obtain ⟨newT, f1, f2, f3, f4⟩ := matchSellGo_trades b.buys o [] b.orders_by_id []
    rw [List.nil_append] at f1
    have htT : trades = newT := by
      rw [← htre, add_order_proj_sell b o hside]
      exact f1
    subst htT
    obtain ⟨newM, g1, g2, g3, g4⟩ := matchSellGo_maker b.buys o [] b.orders_by_id []
    rw [List.nil_append] at g1
    have htM : trades = newM := by
      rw [← htre, add_order_proj_sell b o hside]
      exact g1
    subst htM
    refine ⟨?_, ?_, ?_, ?_, ?_⟩
    · rw [hr] at hnn
      linarith
    · intro r hrs
      have hchar := add_order_sell b o hside _ _ _ _ rfl hside2
      rw [h] at hchar
      split at hchar
      case isTrue hpos =>
        rw [Prod.mk.injEq, Prod.mk.injEq] at hchar
        obtain ⟨hb2, htr, hres⟩ := hchar
        rw [hres, Option.some.injEq] at hrs
        rw [← hrs, hrem, hr]
      case isFalse hpos =>
        rw [Prod.mk.injEq, Prod.mk.injEq] at hchar
        obtain ⟨hb2, htr, hres⟩ := hchar
        rw [hres] at hrs
        cases hrs
    · intro hrn
      have hchar := add_order_sell b o hside _ _ _ _ rfl hside2
      rw [h] at hchar
      split at hchar
      case isTrue hpos =>
        rw [Prod.mk.injEq, Prod.mk.injEq] at hchar
        obtain ⟨hb2, htr, hres⟩ := hchar
        rw [hres] at hrn
        cases hrn
      case isFalse hpos =>
        rw [hrem] at hpos
        have hle : o.remaining - sumQty trades ≤ 0 := not_lt.mp hpos
        rw [hr] at hnn hle
        linarith
    · intro hcon
      simp at hcon
    · intro _
      refine ⟨?_, ?_, ?_⟩
      · rw [hbuys, e1]
        exact e4
      · intro h0
        rw [hbuys]
        simpa using g3 h0
      · intro k hk
        have hk2 : k < b.buys.length := lt_of_lt_of_le hk f2
        obtain ⟨p1, p2, p3, p4, p5⟩ := f3 k hk hk2
        have hg := g4 k hk hk2
        refine ⟨hk2, p4, hg.1, ?_⟩
        intro hlast
        have hg2 := hg.2 hlast
        refine ⟨?_, ?_⟩
        · intro hpos
          rw [hbuys]
          simpa using hg2.1 hpos
        · intro hnp
          obtain ⟨hqe, hl⟩ := hg2.2 hnp
          refine ⟨hqe, ?_⟩
          rw [hbuys]
          simpa using hl

theorem quantity_conservation_spec_witness :
    sumQty (witBookS.add_order witBuy3).2.1 ≤ witBuy3.quantity ∧
    (∀ r, (witBookS.add_order witBuy3).2.2 = some r →
      r.remaining = witBuy3.quantity - sumQty (witBookS.add_order witBuy3).2.1) ∧
    ((witBookS.add_order witBuy3).2.2 = none →
      sumQty (witBookS.add_order witBuy3).2.1 = witBuy3.quantity) ∧
    (witBuy3.side = Side.BUY →
      sumRem witBookS.sells =
        sumRem (witBookS.add_order witBuy3).1.sells +
          sumQty (witBookS.add_order witBuy3).2.1 ∧
      ((witBookS.add_order witBuy3).2.1 = [] →
        (witBookS.add_order witBuy3).1.sells = witBookS.sells) ∧
      (∀ k, ∀ (hk : k < (witBookS.add_order witBuy3).2.1.length),
        ∃ hk2 : k < witBookS.sells.length,
        ((witBookS.add_order witBuy3).2.1.get ⟨k, hk⟩).quantity =
          min (witBuy3.remaining -
              sumQty ((witBookS.add_order witBuy3).2.1.take k))
            (witBookS.sells.get ⟨k, hk2⟩).remaining ∧
        (k + 1 < (witBookS.add_order witBuy3).2.1.length →
          ((witBookS.add_order witBuy3).2.1.get ⟨k, hk⟩).quantity =
            (witBookS.sells.get ⟨k, hk2⟩).remaining) ∧
        (k + 1 = (witBookS.add_order witBuy3).2.1.length →
          (0 < (witBookS.sells.get ⟨k, hk2⟩).remaining -
              ((witBookS.add_order witBuy3).2.1.get ⟨k, hk⟩).quantity →
            (witBookS.add_order witBuy3).1.sells =
              { witBookS.sells.get ⟨k, hk2⟩ with remaining :=
                  (witBookS.sells.get ⟨k, hk2⟩).remaining -
                    ((witBookS.add_order witBuy3).2.1.get ⟨k, hk⟩).quantity } ::
                witBookS.sells.drop (witBookS.add_order witBuy3).2.1.length) ∧
          ((witBookS.sells.get ⟨k, hk2⟩).remaining -
              ((witBookS.add_order witBuy3).2.1.get ⟨k, hk⟩).quantity ≤ 0 →
            ((witBookS.add_order witBuy3).2.1.get ⟨k, hk⟩).quantity =
              (witBookS.sells.get ⟨k, hk2⟩).remaining ∧
            (witBookS.add_order witBuy3).1.sells =
              witBookS.sells.drop (witBookS.add_order witBuy3).2.1.length)))) ∧
    (witBuy3.side = Side.SELL →
      sumRem witBookS.buys =
        sumRem (witBookS.add_order witBuy3).1.buys +
          sumQty (witBookS.add_order witBuy3).2.1 ∧
      ((witBookS.add_order witBuy3).2.1 = [] →
        (witBookS.add_order witBuy3).1.buys = witBookS.buys) ∧
      (∀ k, ∀ (hk : k < (witBookS.add_order witBuy3).2.1.length),
        ∃ hk2 : k < witBookS.buys.length,
        ((witBookS.add_order witBuy3).2.1.get ⟨k, hk⟩).quantity =
          min (witBuy3.remaining -
              sumQty ((witBookS.add_order witBuy3).2.1.take k))
            (witBookS.buys.get ⟨k, hk2⟩).remaining ∧
        (k + 1 < (witBookS.add_order witBuy3).2.1.length →
          ((witBookS.add_order witBuy3).2.1.get ⟨k, hk⟩).quantity =
            (witBookS.buys.get ⟨k, hk2⟩).remaining) ∧
        (k + 1 = (witBookS.add_order witBuy3).2.1.length →
          (0 < (witBookS.buys.get ⟨k, hk2⟩).remaining -
              ((witBookS.add_order witBuy3).2.1.get ⟨k, hk⟩).quantity →
            (witBookS.add_order witBuy3).1.buys =
              { witBookS.buys.get ⟨k, hk2⟩ with remaining :=
                  (witBookS.buys.get ⟨k, hk2⟩).remaining -
                    ((witBookS.add_order witBuy3).2.1.get ⟨k, hk⟩).quantity } ::
                witBookS.buys.drop (witBookS.add_order witBuy3).2.1.length) ∧
          ((witBookS.buys.get ⟨k, hk2⟩).remaining -
              ((witBookS.add_order witBuy3).2.1.get ⟨k, hk⟩).quantity ≤ 0 →
            ((witBookS.add_order witBuy3).2.1.get ⟨k, hk⟩).quantity =
              (witBookS.buys.get ⟨k, hk2⟩).remaining ∧
            (witBookS.add_order witBuy3).1.buys =
              witBookS.buys.drop (witBookS.add_order witBuy3).2.1.length)))) :=
  quantity_conservation_spec witBookS witBuy3
    (witBookS.add_order witBuy3).1 (witBookS.add_order witBuy3).2.1
    (witBookS.add_order witBuy3).2.2 (by norm_num [witBuy3]) rfl rfl

/-- C6: after matching, `add_order` rests the incoming order iff it still
has positive remaining: the residual result is exactly that order (its
remaining reduced by the matched total), it is inserted into its own side's
collection and registered in the id index; otherwise the residual is `none`
and the incoming order is inserted nowhere (given its id was fresh, it
appears in no collection and not in the index).  `MatchingEngine.submit_order`
constructs an Order with `remaining = quantity`, delegates to the
obtained-or-created market book's `add_order`, and returns only the trade
sequence, discarding the residual signal. -/
theorem residual_and_submit_spec (b : OrderBook) (o : Order) (b2 : OrderBook)
    (trades : List Trade) (res : Option Order)
    (h : b.add_order o = (b2, trades, res)) :
    ((∃ r, res = some r) ↔ 0 < o.remaining - sumQty trades) ∧
    (∀ r, res = some r →
      r = { o with remaining := o.remaining - sumQty trades } ∧
      (o.side = Side.BUY → r ∈ b2.buys) ∧
      (o.side = Side.SELL → r ∈ b2.sells) ∧
      dictGet b2.orders_by_id o.id = some r) ∧
    (res = none → dictGet b.orders_by_id o.id = none →
      (∀ x ∈ b.buys, x.id ≠ o.id) → (∀ x ∈ b.sells, x.id ≠ o.id) →
      dictGet b2.orders_by_id o.id = none ∧
      (∀ x ∈ b2.buys, x.id ≠ o.id) ∧ (∀ x ∈ b2.sells, x.id ≠ o.id)) ∧
    (∀ (e : MatchingEngine) (oid mid uid : String) (side : Side)
        (ot : OrderType) (pr : Option ℚ) (q : ℚ) (ts : Nat),
      (e.submit_order oid mid uid side ot pr q ts).2 =
        ((e.get_or_create_book mid).2.add_order
          { id := oid, market_id := mid, user_id := uid, side := side
            type := ot, price := pr, quantity := q, remaining := q
            created_at := ts }).2.1) := by
  have hsubmit : ∀ (e : MatchingEngine) (oid mid uid : String) (side : Side)
      (ot : OrderType) (pr : Option ℚ) (q : ℚ) (ts : Nat),
      (e.submit_order oid mid uid side ot pr q ts).2 =
        ((e.get_or_create_book mid).2.add_order
          { id := oid, market_id := mid, user_id := uid, side := side
            type := ot, price := pr, quantity := q, remaining := q
            created_at := ts }).2.1 := by
    intro e oid mid uid side ot pr q ts
    rcases hgc : e.get_or_create_book mid with ⟨e1, book⟩
    rcases ha : book.add_order
        { id := oid, market_id := mid, user_id := uid, side := side
          type := ot, price := pr, quantity := q, remaining := q
          created_at := ts } with ⟨bk2, tr, rs⟩
    simp [MatchingEngine.submit_order, hgc, ha]
  cases hside : o.side
  case BUY =>
    obtain ⟨out2, new, e1, e2, e3, e4, e5, e6⟩ :=
      matchBuyGo_shape b.sells o [] b.orders_by_id []
    rw [List.nil_append] at e1 e2
    have hside2 : (matchBuyGo o [] b.sells b.orders_by_id []).1.side = Side.BUY := by
      rw [e3]
      exact hside
    have hrem : (matchBuyGo o [] b.sells b.orders_by_id []).1.remaining =
        o.remaining - sumQty new := by
      rw [e3]
    have hid : (matchBuyGo o [] b.sells b.orders_by_id []).1.id = o.id := by
      rw [e3]
    rw [add_order_buy b o hside _ _ _ _ rfl hside2] at h
    split at h
    case isTrue hpos =>
      rw [Prod.mk.injEq, Prod.mk.injEq] at h
      obtain ⟨hb2, htr, hres⟩ := h
      rw [e2] at htr
      subst htr
      refine ⟨?_, ?_, ?_, hsubmit⟩
      · constructor
        · intro _
          rw [← hrem]
          exact hpos
        · intro _
          exact ⟨_, hres.symm⟩
      · intro r hrs
        rw [← hres, Option.some.injEq] at hrs
        subst hrs
        refine ⟨?_, ?_, ?_, ?_⟩
        · rw [e3, hside]
        · intro _
          rw [← hb2]
          exact List.mem_mergeSort.mpr (List.mem_append_right _ (List.mem_singleton.mpr rfl))
        · intro hcon
          simp at hcon
        · rw [← hb2]
          show dictGet (dictInsert (matchBuyGo o [] b.sells b.orders_by_id []).2.2.1
              (matchBuyGo o [] b.sells b.orders_by_id []).1.id
              (matchBuyGo o [] b.sells b.orders_by_id []).1) o.id =
            some ((matchBuyGo o [] b.sells b.orders_by_id []).1)
          rw [hid]
          exact dictGet_dictInsert_self _ _ _
      · intro hcon
        rw [← hres] at hcon
        cases hcon
    case isFalse hpos =>
      rw [Prod.mk.injEq, Prod.mk.injEq] at h
      obtain ⟨hb2, htr, hres⟩ := h
      rw [e2] at htr
      subst htr
      refine ⟨?_, ?_, ?_, hsubmit⟩
      · constructor
        · intro ⟨r, hrs⟩
          rw [← hres] at hrs
          cases hrs
        · intro hcon
          rw [← hrem] at hcon
          exact absurd hcon hpos
      · intro r hrs
        rw [← hres] at hrs
        cases hrs
      · intro _ hfresh hbuys hsells
        refine ⟨?_, ?_, ?_⟩
        · rw [← hb2]
          exact (matchBuyGo_idx b.sells o [] b.orders_by_id []).2 o.id hfresh
            (fun x hx hxid => hsells x hx hxid)
        · intro x hx
          rw [← hb2] at hx
          exact hbuys x hx
        · intro x hx
          rw [← hb2] at hx
          rw [e1] at hx
          obtain ⟨y, hy, hxy⟩ := e5.mem x hx
          rcases hxy with h2 | ⟨rq, hrq, h2⟩
          · rw [h2]
            exact hsells y hy
          · rw [h2]
            exact hsells y hy
  case SELL =>
    obtain ⟨out2, new, e1, e2, e3, e4, e5, e6⟩ :=
      matchSellGo_shape b.buys o [] b.orders_by_id []
    rw [List.nil_append] at e1 e2
    have hside2 : (matchSellGo o [] b.buys b.orders_by_id []).1.side = Side.SELL := by
      rw [e3]
      exact hside
    have hrem : (matchSellGo o [] b.buys b.orders_by_id []).1.remaining =
        o.remaining - sumQty new := by
      rw [e3]
    have hid : (matchSellGo o [] b.buys b.orders_by_id []).1.id = o.id := by
      rw [e3]
    rw [add_order_sell b o hside _ _ _ _ rfl hside2] at h
    split at h
    case isTrue hpos =>
      rw [Prod.mk.injEq, Prod.mk.injEq] at h
      obtain ⟨hb2, htr, hres⟩ := h
      rw [e2] at htr
      subst htr
      refine ⟨?_, ?_, ?_, hsubmit⟩
      · constructor
        · intro _
          rw [← hrem]
          exact hpos
        · intro _
          exact ⟨_, hres.symm⟩
      · intro r hrs
        rw [← hres, Option.some.injEq] at hrs
        subst hrs
        refine ⟨?_, ?_, ?_, ?_⟩
        · rw [e3, hside]
        · intro hcon
          simp at hcon
        · intro _
          rw [← hb2]
          exact List.mem_mergeSort.mpr (List.mem_append_right _ (List.mem_singleton.mpr rfl))
        · rw [← hb2]
          show dictGet (dictInsert (matchSellGo o [] b.buys b.orders_by_id []).2.2.1
              (matchSellGo o [] b.buys b.orders_by_id []).1.id
              (matchSellGo o [] b.buys b.orders_by_id []).1) o.id =
            some ((matchSellGo o [] b.buys b.orders_by_id []).1)
          rw [hid]
          exact dictGet_dictInsert_self _ _ _
      · intro hcon
        rw [← hres] at hcon
        cases hcon
    case isFalse hpos =>
      rw [Prod.mk.injEq, Prod.mk.injEq] at h
      obtain ⟨hb2, htr, hres⟩ := h
      rw [e2] at htr
      subst htr
      refine ⟨?_, ?_, ?_, hsubmit⟩
      · constructor
        · intro ⟨r, hrs⟩
          rw [← hres] at hrs
          cases hrs
        · intro hcon
          rw [← hrem] at hcon
          exact absurd hcon hpos
      · intro r hrs
        rw [← hres] at hrs
        cases hrs
      · intro _ hfresh hbuys hsells
        refine ⟨?_, ?_, ?_⟩
        · rw [← hb2]
          exact (matchSellGo_idx b.buys o [] b.orders_by_id []).2 o.id hfresh
            (fun x hx hxid => hbuys x hx hxid)
        · intro x hx
          rw [← hb2] at hx
          rw [e1] at hx
          obtain ⟨y, hy, hxy⟩ := e5.mem x hx
          rcases hxy with h2 | ⟨rq, hrq, h2⟩
          · rw [h2]
            exact hbuys y hy
          · rw [h2]
            exact hbuys y hy
        · intro x hx
          rw [← hb2] at hx
          exact hsells x hx

theorem residual_and_submit_spec_witness :
    ((∃ r, (witBookS.add_order witBuy1).2.2 = some r) ↔
      0 < witBuy1.remaining - sumQty (witBookS.add_order witBuy1).2.1) ∧
    (∀ r, (witBookS.add_order witBuy1).2.2 = some r →
      r = { witBuy1 with remaining :=
              witBuy1.remaining - sumQty (witBookS.add_order witBuy1).2.1 } ∧
      (witBuy1.side = Side.BUY → r ∈ (witBookS.add_order witBuy1).1.buys) ∧
      (witBuy1.side = Side.SELL → r ∈ (witBookS.add_order witBuy1).1.sells) ∧
      dictGet (witBookS.add_order witBuy1).1.orders_by_id witBuy1.id = some r) ∧
    ((witBookS.add_order witBuy1).2.2 = none →
      dictGet witBookS.orders_by_id witBuy1.id = none →
      (∀ x ∈ witBookS.buys, x.id ≠ witBuy1.id) →
      (∀ x ∈ witBookS.sells, x.id ≠ witBuy1.id) →
      dictGet (witBookS.add_order witBuy1).1.orders_by_id witBuy1.id = none ∧
      (∀ x ∈ (witBookS.add_order witBuy1).1.buys, x.id ≠ witBuy1.id) ∧
      (∀ x ∈ (witBookS.add_order witBuy1).1.sells, x.id ≠ witBuy1.id)) ∧
    (∀ (e : MatchingEngine) (oid mid uid : String) (side : Side)
        (ot : OrderType) (pr : Option ℚ) (q : ℚ) (ts : Nat),
      (e.submit_order oid mid uid side ot pr q ts).2 =
        ((e.get_or_create_book mid).2.add_order
          { id := oid, market_id := mid, user_id := uid, side := side
            type := ot, price := pr, quantity := q, remaining := q
            created_at := ts }).2.1) :=
  residual_and_submit_spec witBookS witBuy1
    (witBookS.add_order witBuy1).1 (witBookS.add_order witBuy1).2.1
    (witBookS.add_order witBuy1).2.2 rfl

theorem matchBuyGo_market_done (todo : List Order) :
    ∀ (incoming : Order) (done : List Order) (idx : List (String × Order))
      (acc : List Trade), incoming.type = OrderType.MARKET →
      0 < (matchBuyGo incoming done todo idx acc).1.remaining →
      (matchBuyGo incoming done todo idx acc).2.1 = done := by
  induction todo with
  | nil =>
    intro incoming done idx acc ht hpos
    rw [matchBuyGo_nil]
  | cons best rest ih =>
    intro incoming done idx acc ht hpos
    by_cases h0 : incoming.remaining ≤ 0
    · rw [matchBuyGo_exit _ _ _ _ _ h0] at hpos
      exact absurd hpos (not_lt.mpr h0)
    · push_neg at h0
      have hbr : buyBreaks incoming best = false := buyBreaks_market _ _ ht
      by_cases hdel : best.remaining - min incoming.remaining best.remaining ≤ 0
      · rw [matchBuyGo_cons_eat _ _ _ _ _ _ h0 hbr hdel] at hpos ⊢
        exact ih _ _ _ _ ht hpos
      · push_neg at hdel
        rw [matchBuyGo_cons_keep _ _ _ _ _ _ h0 hbr hdel] at hpos
        have hq := min_eq_left_of_pos hdel
        simp only [hq] at hpos
        simp at hpos

theorem matchSellGo_market_done (todo : List Order) :
    ∀ (incoming : Order) (done : List Order) (idx : List (String × Order))
      (acc : List Trade), incoming.type = OrderType.MARKET →
      0 < (matchSellGo incoming done todo idx acc).1.remaining →
      (matchSellGo incoming done todo idx acc).2.1 = done := by
  induction todo with
  | nil =>
    intro incoming done idx acc ht hpos
    rw [matchSellGo_nil]
  | cons best rest ih =>
    intro incoming done idx acc ht hpos
    by_cases h0 : incoming.remaining ≤ 0
    · rw [matchSellGo_exit _ _ _ _ _ h0] at hpos
      exact absurd hpos (not_lt.mpr h0)
    · push_neg at h0
      have hbr : sellBreaks incoming best = false := sellBreaks_market _ _ ht
      by_cases hdel : best.remaining - min incoming.remaining best.remaining ≤ 0
      · rw [matchSellGo_cons_eat _ _ _ _ _ _ h0 hbr hdel] at hpos ⊢
        exact ih _ _ _ _ ht hpos
      · push_neg at hdel
        rw [matchSellGo_cons_keep _ _ _ _ _ _ h0 hbr hdel] at hpos
        have hq := min_eq_left_of_pos hdel
        simp only [hq] at hpos
        simp at hpos

/-- C7: a MARKET order (price absent) that still has positive remaining
after matching — the opposing collection was exhausted before it fully
filled — is rested: it is returned as the residual, inserted into its own
side's collection with no price, and registered in the id index; the
opposing collection is empty at that point.  It is not rejected or
cancelled. -/
theorem market_residual_spec (b : OrderBook) (o : Order) (b2 : OrderBook)
    (trades : List Trade) (res : Option Order) (r : Order)
    (h : b.add_order o = (b2, trades, res))
    (ht : o.type = OrderType.MARKET) (hp : o.price = none)
    (hres : res = some r) :
    r.price = none ∧ 0 < r.remaining ∧
    dictGet b2.orders_by_id o.id = some r ∧
    (o.side = Side.BUY → r ∈ b2.buys ∧ b2.sells = []) ∧
    (o.side = Side.SELL → r ∈ b2.sells ∧ b2.buys = []) := by
  cases hside : o.side
  case BUY =>
    obtain ⟨out2, new, e1, e2, e3, e4, e5, e6⟩ :=
      matchBuyGo_shape b.sells o [] b.orders_by_id []
    have hside2 : (matchBuyGo o [] b.sells b.orders_by_id []).1.side = Side.BUY := by
      rw [e3]
      exact hside
    have hid : (matchBuyGo o [] b.sells b.orders_by_id []).1.id = o.id := by
      rw [e3]
    have hprice : (matchBuyGo o [] b.sells b.orders_by_id []).1.price = none := by
      rw [e3]
      exact hp
    have htype : (matchBuyGo o [] b.sells b.orders_by_id []).1.type =
        OrderType.MARKET := by
      rw [e3]
      exact ht
    rw [add_order_buy b o hside _ _ _ _ rfl hside2] at h
    split at h
    case isFalse hpos =>
      rw [Prod.mk.injEq, Prod.mk.injEq] at h
      obtain ⟨hb2, htr, hresn⟩ := h
      rw [← hresn] at hres
      cases hres
    case isTrue hpos =>
      rw [Prod.mk.injEq, Prod.mk.injEq] at h
      obtain ⟨hb2, htr, hres2⟩ := h
      rw [← hres2, Option.some.injEq] at hres
      subst hres
      have hdone := matchBuyGo_market_done b.sells o [] b.orders_by_id [] ht hpos
      refine ⟨hprice, hpos, ?_, ?_, ?_⟩
      · rw [← hb2]
        show dictGet (dictInsert (matchBuyGo o [] b.sells b.orders_by_id []).2.2.1
            (matchBuyGo o [] b.sells b.orders_by_id []).1.id
            (matchBuyGo o [] b.sells b.orders_by_id []).1) o.id =
          some ((matchBuyGo o [] b.sells b.orders_by_id []).1)
        rw [hid]
        exact dictGet_dictInsert_self _ _ _
      · intro _
        rw [← hb2]
        exact ⟨List.mem_mergeSort.mpr
          (List.mem_append_right _ (List.mem_singleton.mpr rfl)), hdone⟩
      · intro hcon
        simp at hcon
  case SELL =>
    obtain ⟨out2, new, e1, e2, e3, e4, e5, e6⟩ :=
      matchSellGo_shape b.buys o [] b.orders_by_id []
    have hside2 : (matchSellGo o [] b.buys b.orders_by_id []).1.side = Side.SELL := by
      rw [e3]
      exact hside
    have hid : (matchSellGo o [] b.buys b.orders_by_id []).1.id = o.id := by
      rw [e3]
    have hprice : (matchSellGo o [] b.buys b.orders_by_id []).1.price = none := by
      rw [e3]
      exact hp
    rw [add_order_sell b o hside _ _ _ _ rfl hside2] at h
    split at h
    case isFalse hpos =>
      rw [Prod.mk.injEq, Prod.mk.injEq] at h
      obtain ⟨hb2, htr, hresn⟩ := h
      rw [← hresn] at hres
      cases hres
    case isTrue hpos =>
      rw [Prod.mk.injEq, Prod.mk.injEq] at h
      obtain ⟨hb2, htr, hres2⟩ := h
      rw [← hres2, Option.some.injEq] at hres
      subst hres
      have hdone := matchSellGo_market_done b.buys o [] b.orders_by_id [] ht hpos
      refine ⟨hprice, hpos, ?_, ?_, ?_⟩
      · rw [← hb2]
        show dictGet (dictInsert (matchSellGo o [] b.buys b.orders_by_id []).2.2.1
            (matchSellGo o [] b.buys b.orders_by_id []).1.id
            (matchSellGo o [] b.buys b.orders_by_id []).1) o.id =
          some ((matchSellGo o [] b.buys b.orders_by_id []).1)
        rw [hid]
        exact dictGet_dictInsert_self _ _ _
      · intro hcon
        simp at hcon
      · intro _
        rw [← hb2]
        exact ⟨List.mem_mergeSort.mpr
          (List.mem_append_right _ (List.mem_singleton.mpr rfl)), hdone⟩

theorem market_residual_spec_witness :
    witMkt.price = none ∧ 0 < witMkt.remaining ∧
    dictGet ((emptyBook "m").add_order witMkt).1.orders_by_id witMkt.id =
      some witMkt ∧
    (witMkt.side = Side.BUY → witMkt ∈ ((emptyBook "m").add_order witMkt).1.buys ∧
      ((emptyBook "m").add_order witMkt).1.sells = []) ∧
    (witMkt.side = Side.SELL → witMkt ∈ ((emptyBook "m").add_order witMkt).1.sells ∧
      ((emptyBook "m").add_order witMkt).1.buys = []) := by
  have hres : ((emptyBook "m").add_order witMkt).2.2 = some witMkt := by
    rw [add_order_buy (emptyBook "m") witMkt rfl witMkt [] [] [] rfl rfl]
    rw [if_pos (by norm_num [witMkt])]
  exact market_residual_spec (emptyBook "m") witMkt
    ((emptyBook "m").add_order witMkt).1 ((emptyBook "m").add_order witMkt).2.1
    ((emptyBook "m").add_order witMkt).2.2 witMkt rfl rfl rfl hres

/-- C8: `cancel_order` fails with OrderNotFound iff the order id is absent
from the id index, and in that case the book is unchanged; when the id is
present (under the book's well-formedness: index keys match order ids, and
each side holds at most one entry per id), the order is removed from its
side's collection and from the index, so a second cancel of the same id
fails with OrderNotFound. -/
theorem cancel_order_spec (b : OrderBook) (oid : String) (b2 : OrderBook)
    (err : Option MatchingEngineError)
    (h : b.cancel_order oid = (b2, err))
    (hkeys : ∀ e ∈ b.orders_by_id, e.2.id = e.1)
    (hcb : b.buys.countP (fun x => x.id == oid) ≤ 1)
    (hcs : b.sells.countP (fun x => x.id == oid) ≤ 1) :
    (err.isSome ↔ dictGet b.orders_by_id oid = none) ∧
    (err.isSome → b2 = b) ∧
    (err = none →
      dictGet b2.orders_by_id oid = none ∧
      (∀ order, dictGet b.orders_by_id oid = some order →
        (order.side = Side.BUY → ∀ x ∈ b2.buys, x.id ≠ oid) ∧
        (order.side = Side.SELL → ∀ x ∈ b2.sells, x.id ≠ oid)) ∧
      (b2.cancel_order oid).2.isSome) := by
  cases hg : dictGet b.orders_by_id oid with
  | none =>
    rw [cancel_order_none b oid hg] at h
    rw [Prod.mk.injEq] at h
    obtain ⟨hb2, herr⟩ := h
    refine ⟨?_, ?_, ?_⟩
    · rw [← herr]
      simp [hg]
    · intro _
      rw [← hb2]
    · intro hcon
      rw [← herr] at hcon
      cases hcon
  | some order =>
    rw [cancel_order_some b oid order hg] at h
    rw [Prod.mk.injEq] at h
    obtain ⟨hb2, herr⟩ := h
    have hoid : order.id = oid := hkeys (oid, order) (dictGet_some_mem hg)
    have hnone : dictGet b2.orders_by_id oid = none := by
      rw [← hb2]
      split
      · exact dictGet_dictPop_self _ _
      · exact dictGet_dictPop_self _ _
    refine ⟨?_, ?_, ?_⟩
    · rw [← herr]
      simp [hg]
    · intro hcon
      rw [← herr] at hcon
      simp at hcon
    · intro _
      refine ⟨hnone, ?_, ?_⟩
      · intro order2 hg2
        rw [Option.some.injEq] at hg2
        subst hg2
        constructor
        · intro hside x hx hxid
          rw [← hb2, if_pos hside] at hx
          have hne := removeFirstById_not_mem b.buys order.id
            (by rw [hoid]; exact hcb) x hx
          rw [hoid] at hne
          exact hne hxid
        · intro hside x hx hxid
          have hnb : ¬ order.side = Side.BUY := by
            rw [hside]
            intro hcon
            cases hcon
          rw [← hb2, if_neg hnb] at hx
          have hne := removeFirstById_not_mem b.sells order.id
            (by rw [hoid]; exact hcs) x hx
          rw [hoid] at hne
          exact hne hxid
      · rw [cancel_err_iff]
        exact hnone

theorem cancel_order_spec_witness :
    ((witBookC.cancel_order "b1").2.isSome ↔
      dictGet witBookC.orders_by_id "b1" = none) ∧
    ((witBookC.cancel_order "b1").2.isSome →
      (witBookC.cancel_order "b1").1 = witBookC) ∧
    ((witBookC.cancel_order "b1").2 = none →
      dictGet (witBookC.cancel_order "b1").1.orders_by_id "b1" = none ∧
      (∀ order, dictGet witBookC.orders_by_id "b1" = some order →
        (order.side = Side.BUY →
          ∀ x ∈ (witBookC.cancel_order "b1").1.buys, x.id ≠ "b1") ∧
        (order.side = Side.SELL →
          ∀ x ∈ (witBookC.cancel_order "b1").1.sells, x.id ≠ "b1")) ∧
      ((witBookC.cancel_order "b1").1.cancel_order "b1").2.isSome) :=
  cancel_order_spec witBookC "b1" (witBookC.cancel_order "b1").1
    (witBookC.cancel_order "b1").2 rfl
    (by
      intro e he
      rw [witBookC] at he
      rw [List.mem_singleton] at he
      subst he
      rfl)
    (by
      rw [witBookC, witBuy1]
      simp [List.countP_cons])
    (by
      rw [witBookC]
      simp [List.countP_cons])

/-- C9: `MatchingEngine.cancel_order` fails with OrderNotFound when the
market id has no book yet (leaving the engine unchanged), otherwise
delegates to that book's `cancel_order` and returns its outcome unchanged —
so it fails exactly when the market is unknown or the order id is not in
that market's book index. -/
theorem engine_cancel_spec (e : MatchingEngine) (mid oid : String)
    (e2 : MatchingEngine) (err : Option MatchingEngineError)
    (h : e.cancel_order mid oid = (e2, err)) :
    (err.isSome ↔ (dictGet e.books mid = none ∨
      ∃ bk, dictGet e.books mid = some bk ∧ dictGet bk.orders_by_id oid = none)) ∧
    (dictGet e.books mid = none → e2 = e ∧
      err = some (MatchingEngineError.orderNotFound
        ("Market " ++ mid ++ " has no orderbook"))) ∧
    (∀ bk, dictGet e.books mid = some bk → err = (bk.cancel_order oid).2) := by
  cases hg : dictGet e.books mid with
  | none =>
    have hcalc : e.cancel_order mid oid =
        (e, some (MatchingEngineError.orderNotFound
          ("Market " ++ mid ++ " has no orderbook"))) := by
      simp [MatchingEngine.cancel_order, hg]
    rw [hcalc, Prod.mk.injEq] at h
    obtain ⟨he2, herr⟩ := h
    refine ⟨?_, ?_, ?_⟩
    · rw [← herr]
      simp
    · intro _
      exact ⟨he2.symm, herr.symm⟩
    · intro bk hbk
      cases hbk
  | some bk0 =>
    rcases hbc : bk0.cancel_order oid with ⟨bk2, er⟩
    have hcalc : e.cancel_order mid oid =
        ({ books := dictInsert e.books mid bk2 }, er) := by
      simp [MatchingEngine.cancel_order, hg, hbc]
    rw [hcalc, Prod.mk.injEq] at h
    obtain ⟨he2, herr⟩ := h
    refine ⟨?_, ?_, ?_⟩
    · rw [← herr]
      constructor
      · intro hs
        refine Or.inr ⟨bk0, rfl, ?_⟩
        exact (cancel_err_iff bk0 oid).mp (by rw [hbc]; exact hs)
      · intro hdisj
        rcases hdisj with hnone | ⟨bk, hbk, hbknone⟩
        · cases hnone
        · injection hbk with hbkeq
          rw [← hbkeq] at hbknone
          have hs := (cancel_err_iff bk0 oid).mpr hbknone
          rw [hbc] at hs
          exact hs
    · intro hcon
      cases hcon
    · intro bk hbk
      injection hbk with hbkeq
      rw [← hbkeq, hbc, ← herr]

theorem engine_cancel_spec_witness :
    ((witEngine.cancel_order "m" "b1").2.isSome ↔
      (dictGet witEngine.books "m" = none ∨
        ∃ bk, dictGet witEngine.books "m" = some bk ∧
          dictGet bk.orders_by_id "b1" = none)) ∧
    (dictGet witEngine.books "m" = none →
      (witEngine.cancel_order "m" "b1").1 = witEngine ∧
      (witEngine.cancel_order "m" "b1").2 =
        some (MatchingEngineError.orderNotFound
          ("Market " ++ "m" ++ " has no orderbook"))) ∧
    (∀ bk, dictGet witEngine.books "m" = some bk →
      (witEngine.cancel_order "m" "b1").2 = (bk.cancel_order "b1").2) :=
  engine_cancel_spec witEngine "m" "b1"
    (witEngine.cancel_order "m" "b1").1 (witEngine.cancel_order "m" "b1").2 rfl

end PredictionExchange